import Mathlib

/-!
Shallow embedding of the open-addressing hash table in `src/hashtable.h`
(linear probing, tombstone deletion, load-factor driven resize), together
with proofs of the specification's claims about it.

Modelling conventions:
* The generated C struct `name##_t` becomes `Table K V`; the slot states
  `HT_SLOT_EMPTY / OCCUPIED / DELETED` become the inductive `Slot`.
* The user-supplied `hash`, `compare` and `value_copy` callbacks are fields
  of the table, as in the C struct.  `key_free` / `value_free` only affect
  memory management and have no observable effect on table contents, so they
  are not modelled.  The `pthread_rwlock_t` field is likewise dropped: every
  operation is synchronous under the lock.
* `calloc` failure is modelled by a boolean allocation oracle passed to the
  operations that allocate (`resize` via `set`/`reserve`).
* The unbounded C probe loops are modelled with fuel equal to `capacity`:
  after `capacity` probes the loop has visited every slot once and, finding
  neither a terminator nor a match, would revisit the same slots forever.
  A `none` result therefore models the C loop's non-termination.
* The float comparison `(float)(size + deleted) / capacity > 0.75` is
  modelled exactly as the rational comparison `4 * (size + deleted) >
  3 * capacity`, which agrees with the float computation for all table
  sizes whose counts are exactly representable in single precision.
-/

namespace HT

/-- `ht_status` from the source: result codes of `set` / `reserve`. -/
inductive ht_status where
  | HT_SUCCESS
  | HT_ERROR_MEMORY
deriving DecidableEq, Repr

/-- `ht_slot_state` plus the payload stored in an entry: an `entry_t` whose
`state` is `HT_SLOT_OCCUPIED` carries its key and value; `EMPTY` and
`DELETED` entries carry no live data (a tombstone's key and value have been
freed). -/
inductive Slot (K V : Type) where
  | empty
  | occupied (key : K) (value : V)
  | deleted
deriving DecidableEq, Repr

/-- The table struct `name##_t`: entry array, capacity, live count (`size`),
tombstone count (`deleted_count`) and the configured callbacks. -/
structure Table (K V : Type) where
  entries : List (Slot K V)
  capacity : Nat
  size : Nat
  deleted_count : Nat
  hash : K → Nat
  compare : K → K → Bool
  value_copy : Option (V → V)

variable {K V : Type}

/-- Read the entry array at an index (`ht->entries[i]`). -/
def slotAt (ht : Table K V) (i : Nat) : Slot K V :=
  ht.entries.getD i .empty

/-- `name##_create`: capacity 16, all slots zeroed (= `HT_SLOT_EMPTY`),
counts zero, callbacks stored. -/
def ht_create (hash : K → Nat) (compare : K → K → Bool)
    (value_copy : Option (V → V)) : Table K V :=
  { entries := List.replicate 16 .empty
    capacity := 16
    size := 0
    deleted_count := 0
    hash := hash
    compare := compare
    value_copy := value_copy }

/-- Outcome of the shared linear-probe loop of `set` / `get` / `delete`:
either the first occupied slot whose key compares equal (`hit`, with the
slot index and stored key/value), or the terminating empty slot (`miss`,
with its index and the first tombstone encountered on the path, which only
`set` uses). -/
inductive ProbeOutcome (K V : Type) where
  | hit (i : Nat) (key : K) (value : V)
  | miss (e : Nat) (firstDel : Option Nat)
deriving Repr

/-- The probe loop body shared by `set`, `get` and `delete`:
`while (entries[index].state != HT_SLOT_EMPTY) { ... index = (index+1) %
capacity; }`.  `fd` is `first_deleted` (only consulted by `set`); `fuel`
bounds the number of probes, `none` modelling a loop that never exits. -/
def probeLoop (ht : Table K V) (k : K) :
    Nat → Nat → Option Nat → Option (ProbeOutcome K V)
  | 0, _, _ => none
  | fuel + 1, idx, fd =>
    match slotAt ht idx with
    | .empty => some (.miss idx fd)
    | .occupied k1 v =>
        if ht.compare k1 k then some (.hit idx k1 v)
        else probeLoop ht k fuel ((idx + 1) % ht.capacity) fd
    | .deleted =>
        probeLoop ht k fuel ((idx + 1) % ht.capacity)
          (fd.orElse fun _ => some idx)

/-- Run the probe loop from `hash(key) % capacity` with no tombstone
remembered, giving every slot a chance to be visited once. -/
def probe (ht : Table K V) (k : K) : Option (ProbeOutcome K V) :=
  probeLoop ht k ht.capacity (ht.hash k % ht.capacity) none

/-- The resize trigger of `name##_set`:
`(float)(size + deleted_count) / capacity > 0.75 || deleted_count > size/2`. -/
def resizeTrigger (ht : Table K V) : Bool :=
  decide (4 * (ht.size + ht.deleted_count) > 3 * ht.capacity) ||
    decide (ht.deleted_count > ht.size / 2)

/-- The inner loop of `name##_resize`: from the rehashed start index, scan
`while (entries[index].state == HT_SLOT_OCCUPIED)` and write the migrated
entry into the first non-occupied slot. -/
def rehashInsert (es : List (Slot K V)) (c : Nat) (k : K) (v : V) :
    Nat → Nat → Option (List (Slot K V))
  | 0, _ => none
  | fuel + 1, idx =>
    match es.getD idx .empty with
    | .occupied _ _ => rehashInsert es c k v fuel ((idx + 1) % c)
    | _ => some (es.set idx (.occupied k v))

/-- The migration loop of `name##_resize`: walk the old array in index
order and insert every occupied entry into the new array, incrementing the
re-counted size per migrated entry. -/
def rehashList (hash : K → Nat) (c : Nat) :
    List (Slot K V) → List (Slot K V) × Nat → Option (List (Slot K V) × Nat)
  | [], st => some st
  | .occupied k v :: rest, (es, sz) =>
    match rehashInsert es c k v c (hash k % c) with
    | none => none
    | some es1 => rehashList hash c rest (es1, sz + 1)
  | .empty :: rest, st => rehashList hash c rest st
  | .deleted :: rest, st => rehashList hash c rest st

/-- `name##_resize`: allocate a zeroed array of `new_capacity` entries
(`allocOk = false` models `calloc` returning `NULL`, in which case the
table is untouched and `HT_ERROR_MEMORY` is returned), migrate all occupied
entries, and reset `deleted_count` to zero. -/
def ht_resize (allocOk : Bool) (ht : Table K V) (new_capacity : Nat) :
    Option (ht_status × Table K V) :=
  if allocOk then
    match rehashList ht.hash new_capacity ht.entries
        (List.replicate new_capacity .empty, 0) with
    | none => none
    | some (es, sz) =>
        some (.HT_SUCCESS,
          { ht with entries := es, capacity := new_capacity,
                    size := sz, deleted_count := 0 })
  else some (.HT_ERROR_MEMORY, ht)

/-- The probe-and-write part of `name##_set` (everything after the resize
check): on a hit, free and overwrite the value in place, keeping the stored
key; on a miss, write into the remembered tombstone if any (decrementing
`deleted_count`), else into the terminating empty slot, and increment
`size`. -/
def setInsert (ht : Table K V) (k : K) (v : V) :
    Option (ht_status × Table K V) :=
  match probe ht k with
  | none => none
  | some (.hit i k1 _) =>
      some (.HT_SUCCESS, { ht with entries := ht.entries.set i (.occupied k1 v) })
  | some (.miss e fd) =>
      some (.HT_SUCCESS,
        { ht with
            entries := ht.entries.set (fd.getD e) (.occupied k v)
            size := ht.size + 1
            deleted_count :=
              if fd.isSome then ht.deleted_count - 1 else ht.deleted_count })

/-- `name##_set`: evaluate the resize trigger first (resizing to double
capacity, propagating `HT_ERROR_MEMORY` with the table untouched on
allocation failure), then probe and insert/update. -/
def ht_set (allocOk : Bool) (ht : Table K V) (k : K) (v : V) :
    Option (ht_status × Table K V) :=
  if resizeTrigger ht then
    match ht_resize allocOk ht (ht.capacity * 2) with
    | none => none
    | some (.HT_ERROR_MEMORY, _) => some (.HT_ERROR_MEMORY, ht)
    | some (.HT_SUCCESS, ht1) => setInsert ht1 k v
  else setInsert ht k v

/-- Apply the configured `value_copy` callback as `name##_get` does:
`ht->value_copy ? ht->value_copy(value, ud) : value`. -/
def applyCopy (ht : Table K V) (v : V) : V :=
  match ht.value_copy with
  | some f => f v
  | none => v

/-- `name##_get`: probe; on a hit return the (possibly cloned) stored
value, on a miss return the sentinel `(value_type)0`.  The outer `Option`
models loop non-termination only. -/
def ht_get [Zero V] (ht : Table K V) (k : K) : Option V :=
  match probe ht k with
  | none => none
  | some (.hit _ _ v) => some (applyCopy ht v)
  | some (.miss _ _) => some (0 : V)

/-- `name##_delete`: probe; on a hit free the pair, mark the slot
`DELETED`, decrement `size`, increment `deleted_count` and return 1; on a
miss return 0 with the table untouched. -/
def ht_delete (ht : Table K V) (k : K) : Option (Bool × Table K V) :=
  match probe ht k with
  | none => none
  | some (.hit i _ _) =>
      some (true,
        { ht with entries := ht.entries.set i .deleted
                  size := ht.size - 1
                  deleted_count := ht.deleted_count + 1 })
  | some (.miss _ _) => some (false, ht)

/-- `name##_clear`: mark every slot `EMPTY`, zero both counts, keep the
capacity. -/
def ht_clear (ht : Table K V) : Table K V :=
  { ht with entries := List.replicate ht.capacity .empty
            size := 0
            deleted_count := 0 }

/-- `name##_reserve`: a no-op if the requested capacity does not exceed the
current one, otherwise resize to the request (raised to
`size + deleted_count` if below it, which under the previous guard never
happens in a consistent table). -/
def ht_reserve (allocOk : Bool) (ht : Table K V) (capacity : Nat) :
    Option (ht_status × Table K V) :=
  if capacity ≤ ht.capacity then some (.HT_SUCCESS, ht)
  else
    ht_resize allocOk ht
      (if capacity < ht.size + ht.deleted_count then
        ht.size + ht.deleted_count
      else capacity)

/-- One public mutating operation, with its allocation oracle where the
operation can allocate. -/
inductive Op (K V : Type) where
  | set (allocOk : Bool) (k : K) (v : V)
  | del (k : K)
  | clear
  | reserve (allocOk : Bool) (n : Nat)

/-- Run one operation, keeping only the resulting table. -/
def runOp (ht : Table K V) : Op K V → Option (Table K V)
  | .set a k v => (ht_set a ht k v).map (·.2)
  | .del k => (ht_delete ht k).map (·.2)
  | .clear => some (ht_clear ht)
  | .reserve a n => (ht_reserve a ht n).map (·.2)

/-- Replay a sequence of operations from a starting table. -/
def replay (ht : Table K V) : List (Op K V) → Option (Table K V)
  | [] => some ht
  | op :: ops => (runOp ht op).bind fun ht1 => replay ht1 ops

/-! ### Derived predicates used to state and prove the claims -/

/-- Is a slot `HT_SLOT_OCCUPIED`? -/
def isOcc : Slot K V → Bool
  | .occupied _ _ => true
  | _ => false

/-- Is a slot `HT_SLOT_DELETED`? -/
def isDel : Slot K V → Bool
  | .deleted => true
  | _ => false

/-- Is a slot `HT_SLOT_EMPTY`? -/
def isEmp : Slot K V → Bool
  | .empty => true
  | _ => false

/-- Number of occupied slots of an entry array. -/
def occCount (es : List (Slot K V)) : Nat := es.countP isOcc

/-- Number of tombstoned slots of an entry array. -/
def delCount (es : List (Slot K V)) : Nat := es.countP isDel

/-- Does the probe loop for key `k` stop at slot `i` (empty terminator or
matching occupied slot)? -/
def stopB (ht : Table K V) (k : K) (i : Nat) : Bool :=
  match slotAt ht i with
  | .empty => true
  | .occupied k1 _ => ht.compare k1 k
  | .deleted => false

/-- First tombstone among the `j` slots probed from `idx` (wrapping),
mirroring the `first_deleted` bookkeeping of `set`. -/
def pathFirstDel (ht : Table K V) : Nat → Nat → Option Nat
  | _, 0 => none
  | idx, j + 1 =>
    match slotAt ht idx with
    | .deleted => some idx
    | _ => pathFirstDel ht ((idx + 1) % ht.capacity) j

/-- The probe outcome determined by the slot at probe offset `j` from
`idx`, used to characterise `probeLoop`. -/
def outcomeAt (ht : Table K V) (k : K) (idx : Nat) (fd : Option Nat)
    (j : Nat) : ProbeOutcome K V :=
  match slotAt ht ((idx + j) % ht.capacity) with
  | .occupied k1 v => .hit ((idx + j) % ht.capacity) k1 v
  | _ => .miss ((idx + j) % ht.capacity) (fd.orElse fun _ => pathFirstDel ht idx j)

/-- An entry array stores the pair `(k, v)` in some occupied slot. -/
def HasKVL (es : List (Slot K V)) (k : K) (v : V) : Prop :=
  ∃ i, i < es.length ∧ es.getD i .empty = .occupied k v

/-- The table stores the pair `(k, v)` in some occupied slot. -/
def HasKV (ht : Table K V) (k : K) (v : V) : Prop :=
  HasKVL ht.entries k v

/-- No occupied slot of the table holds a key comparing equal to `k`
(the key is not live). -/
def keyAbsent (ht : Table K V) (k : K) : Bool :=
  ht.entries.all fun s =>
    match s with
    | .occupied k1 _ => !(ht.compare k1 k)
    | _ => true

/-- No two distinct occupied slots hold the same key. -/
def NoDupKeys (es : List (Slot K V)) : Prop :=
  ∀ i j k v k2 v2, i < es.length → j < es.length → i ≠ j →
    es.getD i .empty = .occupied k v → es.getD j .empty = .occupied k2 v2 →
    k ≠ k2

/-- Slot `i` is reached by the linear probe from start `s` before any empty
slot: some probe offset `j` lands on `i` and all earlier offsets land on
non-empty slots. -/
def FindableFrom (es : List (Slot K V)) (c s i : Nat) : Prop :=
  ∃ j, j < c ∧ (s + j) % c = i ∧
    ∀ j2, j2 < j → es.getD ((s + j2) % c) .empty ≠ .empty

/-- Every occupied slot is findable from its key's hash start: the
linear-probing correctness invariant. -/
def FindableAll (hash : K → Nat) (es : List (Slot K V)) (c : Nat) : Prop :=
  ∀ i k v, i < es.length → es.getD i .empty = .occupied k v →
    FindableFrom es c (hash k % c) i

/-- Well-formedness of a table state: array length matches capacity, the
counts are the actual slot counts, the table is never full, keys are not
duplicated, and every occupied slot is findable by probing. -/
structure WF (ht : Table K V) : Prop where
  hlen : ht.entries.length = ht.capacity
  hcap : 16 ≤ ht.capacity
  hsize : ht.size = occCount ht.entries
  hdel : ht.deleted_count = delCount ht.entries
  hload : ht.size + ht.deleted_count < ht.capacity
  hdup : NoDupKeys ht.entries
  hfind : FindableAll ht.hash ht.entries ht.capacity

/-- The configured comparison callback decides equality of keys, as the
claims presuppose ("whose key compares equal"). -/
def CmpOk (ht : Table K V) : Prop :=
  ∀ a b, ht.compare a b = true ↔ a = b

/-- Combined hypothesis carried through every reachable state. -/
def Good (ht : Table K V) : Prop :=
  WF ht ∧ CmpOk ht

/-- Reference semantics of one operation on a finite map. -/
def modelApply [DecidableEq K] (op : Op K V) (m : K → Option V) :
    K → Option V :=
  match op with
  | .set _ k v => fun q => if q = k then some v else m q
  | .del k => fun q => if q = k then none else m q
  | .clear => fun _ => none
  | .reserve _ _ => m

/-- Reference semantics of an operation sequence, starting from the empty
map. -/
def modelOf [DecidableEq K] (ops : List (Op K V)) : K → Option V :=
  ops.foldl (fun m op => modelApply op m) fun _ => none

/-- The operation is a `set` with allocation guaranteed to succeed, or a
`delete` (the operations claim C1 quantifies over). -/
def isSetDel : Op K V → Prop
  | .set true _ _ => True
  | .del _ => True
  | _ => False

/-- The table abstracts to the map `m`: an occupied slot holds `(k, v)`
exactly when `m k = some v`. -/
def ModelMatch (ht : Table K V) (m : K → Option V) : Prop :=
  ∀ k v, HasKV ht k v ↔ m k = some v

/-! ### The default pointer hash and comparison (`murmur3_32`,
`ht_hash_ptr`, `ht_compare_ptr`) -/

/-- Truncation to 32 bits, modelling `uint32_t` arithmetic. -/
def u32 (x : Nat) : Nat := x % 4294967296

/-- 32-bit rotate left by `n` (`(k << n) | (k >> (32 - n))` on `uint32_t`). -/
def rotl32 (x n : Nat) : Nat := u32 (x <<< n) ||| (x >>> (32 - n))

/-- Assemble a little-endian 32-bit word from four bytes (`*key_x4` on a
little-endian machine). -/
def le32 (b0 b1 b2 b3 : Nat) : Nat :=
  b0 + 256 * b1 + 65536 * b2 + 16777216 * b3

/-- The 4-byte block loop of `murmur3_32`; returns the updated hash state
and the remaining tail bytes. -/
def murmurBlocks (h : Nat) : List Nat → Nat × List Nat
  | b0 :: b1 :: b2 :: b3 :: rest =>
      let k := u32 (le32 b0 b1 b2 b3 * 0xcc9e2d51)
      let k := rotl32 k 15
      let k := u32 (k * 0x1b873593)
      let h := h ^^^ k
      let h := rotl32 h 13
      let h := u32 (h * 5 + 0xe6546b64)
      murmurBlocks h rest
  | bs => (h, bs)

/-- The tail step of `murmur3_32`: assemble the trailing 1–3 bytes from the
highest index downwards (`k <<= 8; k |= *key--`) and mix them in. -/
def murmurTail (h : Nat) (bs : List Nat) : Nat :=
  match bs with
  | [] => h
  | _ =>
      let k := bs.reverse.foldl (fun k b => (k <<< 8) ||| b) 0
      let k := u32 (k * 0xcc9e2d51)
      let k := rotl32 k 15
      let k := u32 (k * 0x1b873593)
      h ^^^ k

/-- The finalisation of `murmur3_32`: mix in the length, then the
avalanche shifts and multiplies. -/
def murmurFinish (h len : Nat) : Nat :=
  let h := h ^^^ len
  let h := h ^^^ (h >>> 16)
  let h := u32 (h * 0x85ebca6b)
  let h := h ^^^ (h >>> 13)
  let h := u32 (h * 0xc2b2ae35)
  h ^^^ (h >>> 16)

/-- `murmur3_32` over a byte string given as a list of bytes. -/
def murmur3_32 (key : List Nat) (seed : Nat) : Nat :=
  let st := murmurBlocks seed key
  murmurFinish (murmurTail st.1 st.2) key.length

/-- The eight bytes of a 64-bit pointer's bit pattern, little-endian
(`(const uint8_t *)&key` with `sizeof(void *) = 8`). -/
def ptrBytes (p : Nat) : List Nat :=
  [p % 256, p >>> 8 % 256, p >>> 16 % 256, p >>> 24 % 256,
   p >>> 32 % 256, p >>> 40 % 256, p >>> 48 % 256, p >>> 56 % 256]

/-- `ht_hash_ptr`: murmur-hash the bytes of the pointer value itself. -/
def ht_hash_ptr (p : Nat) : Nat := murmur3_32 (ptrBytes p) 0

/-- `ht_compare_ptr`: identity comparison of the two pointer values. -/
def ht_compare_ptr (p q : Nat) : Bool := p == q

/-- `name##_create` as instantiated for pointer-sized keys, including the
defaulting `ht->hash = hash ? hash : ht_hash_ptr` and
`ht->compare = compare ? compare : ht_compare_ptr`. -/
def ptr_create (hash : Option (Nat → Nat)) (compare : Option (Nat → Nat → Bool))
    (value_copy : Option (V → V)) : Table Nat V :=
  ht_create (hash.getD ht_hash_ptr) (compare.getD ht_compare_ptr) value_copy

/-! ### Concrete tables used by witnesses and counterexamples -/

/-- A concrete comparison callback on `Nat` keys. -/
def cmpNat : Nat → Nat → Bool := fun a b => a == b

/-- A concrete (identity) hash callback on `Nat` keys. -/
def idHash : Nat → Nat := fun k => k

/-- A freshly created concrete table. -/
def tab0 : Table Nat Nat := ht_create idHash cmpNat none

/-- `n` successful insertions of the distinct keys `0, …, n-1`. -/
def opsN (n : Nat) : List (Op Nat Nat) :=
  (List.range n).map fun i => .set true i i

/-- The concrete table after inserting keys `0, …, n-1`. -/
def tabN (n : Nat) : Table Nat Nat := (replay tab0 (opsN n)).getD tab0

/-- The concrete table after `set 0`, then `delete 0`: one tombstone. -/
def tabDel : Table Nat Nat :=
  (replay tab0 [.set true 0 5, .del 0]).getD tab0

/-- The result of updating the live key `0` on `tabN 13` (which triggers a
resize although no insertion takes place). -/
def updRes : ht_status × Table Nat Nat :=
  (ht_set true (tabN 13) 0 99).getD (.HT_SUCCESS, tab0)

/-- A short concrete history: `set 5 7`, overwrite with `set 5 9`, delete
the absent key `3`. -/
def c1ops : List (Op Nat Nat) := [.set true 5 7, .set true 5 9, .del 3]

/-- The table after replaying `c1ops`. -/
def c1tab : Table Nat Nat := (replay tab0 c1ops).getD tab0

/-- The table after one successful `set 1 2` on a fresh table. -/
def c5tab : Table Nat Nat := ((ht_set true tab0 1 2).getD (.HT_SUCCESS, tab0)).2

/-- The table returned by a failing `set` (allocation refused) on the
full-enough table `tabN 13`. -/
def c4res : Table Nat Nat :=
  ((ht_set false (tabN 13) 100 0).getD (.HT_SUCCESS, tab0)).2

/-- Insert keys 0, 1, 2, then delete 0: a tombstone in slot 0 with no
resize trigger pending. -/
def opsC8 : List (Op Nat Nat) :=
  [.set true 0 0, .set true 1 1, .set true 2 2, .del 0]

/-- The table after replaying `opsC8`. -/
def tabC8 : Table Nat Nat := (replay tab0 opsC8).getD tab0

/-! ## Helper lemmas

### Probe-path arithmetic -/

theorem orElse_none {α : Type} (x : Option α) : (x.orElse fun _ => none) = x := by
  cases x <;> rfl

theorem orElse_orElse {α : Type} (x : Option α) (a : α) (g : Unit → Option α) :
    ((x.orElse fun _ => some a).orElse g) = x.orElse fun _ => some a := by
  cases x <;> rfl

theorem path_step {c : Nat} (idx j : Nat) :
    ((idx + 1) % c + j) % c = (idx + (j + 1)) % c := by
  rw [Nat.mod_add_mod]
  congr 1
  omega

theorem path_lt {c : Nat} (hc : 0 < c) (s j : Nat) : (s + j) % c < c :=
  Nat.mod_lt _ hc

theorem path_inj {c s j j2 : Nat} (hj : j < c) (hj2 : j2 < c)
    (h : (s + j) % c = (s + j2) % c) : j = j2 := by
  have h2 : j % c = j2 % c := Nat.ModEq.add_left_cancel' s h
  rwa [Nat.mod_eq_of_lt hj, Nat.mod_eq_of_lt hj2] at h2

theorem path_surj {c i : Nat} (hc : 0 < c) (hi : i < c) (s : Nat) :
    ∃ j, j < c ∧ (s + j) % c = i := by
  have hr : s % c < c := Nat.mod_lt _ hc
  by_cases hle : s % c ≤ i
  · refine ⟨i - s % c, by omega, ?_⟩
    rw [← Nat.mod_add_mod]
    have : s % c + (i - s % c) = i := by omega
    rw [this, Nat.mod_eq_of_lt hi]
  · refine ⟨c + i - s % c, by omega, ?_⟩
    rw [← Nat.mod_add_mod]
    have : s % c + (c + i - s % c) = c + i := by omega
    rw [this, Nat.add_mod_left, Nat.mod_eq_of_lt hi]

/-! ### Entry arrays: reads, writes, counts -/

theorem getD_eq_get {es : List (Slot K V)} {i : Nat} (h : i < es.length)
    (d : Slot K V) : es.getD i d = es[i] := by
  simp [List.getD_eq_getElem?_getD, List.getElem?_eq_getElem h]

theorem getD_mem {es : List (Slot K V)} {i : Nat} (h : i < es.length)
    (d : Slot K V) : es.getD i d ∈ es := by
  rw [getD_eq_get h]
  exact List.getElem_mem h

theorem getD_set_self {es : List (Slot K V)} {i : Nat} (h : i < es.length)
    (a d : Slot K V) : (es.set i a).getD i d = a := by
  simp [List.getD_eq_getElem?_getD, List.getElem?_set_self h]

theorem getD_set_ne {es : List (Slot K V)} {i j : Nat} (h : i ≠ j)
    (a d : Slot K V) : (es.set i a).getD j d = es.getD j d := by
  simp [List.getD_eq_getElem?_getD, List.getElem?_set_ne h]

theorem occCount_set {es : List (Slot K V)} {i : Nat} (h : i < es.length)
    (a : Slot K V) :
    occCount (es.set i a) =
      occCount es - (if isOcc (es.getD i .empty) then 1 else 0) +
        (if isOcc a then 1 else 0) := by
  rw [occCount, occCount, List.countP_set _ _ _ _ h, getD_eq_get h]

theorem delCount_set {es : List (Slot K V)} {i : Nat} (h : i < es.length)
    (a : Slot K V) :
    delCount (es.set i a) =
      delCount es - (if isDel (es.getD i .empty) then 1 else 0) +
        (if isDel a then 1 else 0) := by
  rw [delCount, delCount, List.countP_set _ _ _ _ h, getD_eq_get h]

theorem occ_le_count {es : List (Slot K V)} {i : Nat} (h : i < es.length)
    {k : K} {v : V} (ho : es.getD i .empty = .occupied k v) :
    1 ≤ occCount es := by
  have hm : Slot.occupied k v ∈ es := ho ▸ getD_mem h .empty
  exact List.countP_pos_iff.mpr ⟨_, hm, rfl⟩

theorem del_le_count {es : List (Slot K V)} {i : Nat} (h : i < es.length)
    (hd : es.getD i .empty = .deleted) : 1 ≤ delCount es := by
  have hm : Slot.deleted ∈ es := hd ▸ getD_mem h .empty
  exact List.countP_pos_iff.mpr ⟨_, hm, rfl⟩

theorem count_partition (es : List (Slot K V)) :
    occCount es + delCount es + es.countP isEmp = es.length := by
  induction es with
  | nil => rfl
  | cons s rest ih =>
      rw [occCount, delCount] at ih ⊢
      cases s <;> simp [List.countP_cons, isOcc, isDel, isEmp] <;> omega

theorem exists_empty_slot {es : List (Slot K V)}
    (h : occCount es + delCount es < es.length) :
    ∃ i, i < es.length ∧ es.getD i .empty = .empty := by
  have hpart := count_partition es
  have hpos : 0 < es.countP isEmp := by omega
  obtain ⟨s, hs, hemp⟩ := List.countP_pos_iff.mp hpos
  obtain ⟨i, hi, hget⟩ := List.mem_iff_getElem.mp hs
  refine ⟨i, hi, ?_⟩
  rw [getD_eq_get hi, hget]
  cases s with
  | empty => rfl
  | occupied k v => simp [isEmp] at hemp
  | deleted => simp [isEmp] at hemp

/-! ### Characterisation of the probe loop -/

theorem stopB_empty {ht : Table K V} {k : K} {i : Nat}
    (h : slotAt ht i = .empty) : stopB ht k i = true := by
  simp [stopB, h]

theorem stopB_deleted {ht : Table K V} {k : K} {i : Nat}
    (h : slotAt ht i = .deleted) : stopB ht k i = false := by
  simp [stopB, h]

theorem stopB_occupied {ht : Table K V} {k k1 : K} {v : V} {i : Nat}
    (h : slotAt ht i = .occupied k1 v) : stopB ht k i = ht.compare k1 k := by
  simp [stopB, h]

theorem pathFirstDel_succ_deleted {ht : Table K V} {idx : Nat} (j : Nat)
    (h : slotAt ht idx = .deleted) :
    pathFirstDel ht idx (j + 1) = some idx := by
  simp [pathFirstDel, h]

theorem pathFirstDel_succ_occupied {ht : Table K V} {idx : Nat} (j : Nat)
    {k1 : K} {v : V} (h : slotAt ht idx = .occupied k1 v) :
    pathFirstDel ht idx (j + 1) = pathFirstDel ht ((idx + 1) % ht.capacity) j := by
  simp [pathFirstDel, h]

theorem pathFirstDel_succ_empty {ht : Table K V} {idx : Nat} (j : Nat)
    (h : slotAt ht idx = .empty) :
    pathFirstDel ht idx (j + 1) = pathFirstDel ht ((idx + 1) % ht.capacity) j := by
  simp [pathFirstDel, h]

theorem probeLoop_isSome {ht : Table K V} {k : K} :
    ∀ fuel idx fd, idx < ht.capacity →
      (∃ j, j < fuel ∧ stopB ht k ((idx + j) % ht.capacity) = true) →
      (probeLoop ht k fuel idx fd).isSome = true := by
  intro fuel
  induction fuel with
  | zero => intro idx fd _ ⟨j, hj, _⟩; omega
  | succ n ih =>
      intro idx fd hidx ⟨j, hj, hstop⟩
      have hc : 0 < ht.capacity := by omega
      rcases hslot : slotAt ht idx with _ | ⟨k1, v⟩ | _
      · simp [probeLoop, hslot]
      · rcases hcmp : ht.compare k1 k with _ | _
        · rcases j with _ | j2
          · rw [Nat.add_zero, Nat.mod_eq_of_lt hidx] at hstop
            rw [stopB_occupied hslot, hcmp] at hstop
            exact absurd hstop (by simp)
          · simp only [probeLoop, hslot, hcmp, Bool.false_eq_true, if_false]
            exact ih _ fd (Nat.mod_lt _ hc) ⟨j2, by omega, by rwa [path_step]⟩
        · simp [probeLoop, hslot, hcmp]
      · rcases j with _ | j2
        · rw [Nat.add_zero, Nat.mod_eq_of_lt hidx] at hstop
          rw [stopB_deleted hslot] at hstop
          exact absurd hstop (by simp)
        · simp only [probeLoop, hslot]
          exact ih _ _ (Nat.mod_lt _ hc) ⟨j2, by omega, by rwa [path_step]⟩

theorem probeLoop_inversion {ht : Table K V} {k : K} :
    ∀ fuel idx fd o, idx < ht.capacity →
      probeLoop ht k fuel idx fd = some o →
      ∃ j, j < fuel ∧
        (∀ j2, j2 < j → stopB ht k ((idx + j2) % ht.capacity) = false) ∧
        stopB ht k ((idx + j) % ht.capacity) = true ∧
        o = outcomeAt ht k idx fd j := by
  intro fuel
  induction fuel with
  | zero => intro idx fd o _ h; exact absurd h (by rw [probeLoop]; simp)
  | succ n ih =>
      intro idx fd o hidx h
      have hc : 0 < ht.capacity := by omega
      have hmod : (idx + 0) % ht.capacity = idx := by
        rw [Nat.add_zero, Nat.mod_eq_of_lt hidx]
      rcases hslot : slotAt ht idx with _ | ⟨k1, v⟩ | _
      · simp only [probeLoop, hslot, Option.some.injEq] at h
        refine ⟨0, by omega, by omega, ?_, ?_⟩
        · rw [hmod]; exact stopB_empty hslot
        · rw [outcomeAt, hmod]
          simp [hslot, ← h, pathFirstDel, orElse_none]
      · rcases hcmp : ht.compare k1 k with _ | _
        · simp only [probeLoop, hslot, hcmp, Bool.false_eq_true, if_false] at h
          obtain ⟨j, hj, hpre, hstop, ho⟩ := ih _ _ _ (Nat.mod_lt _ hc) h
          refine ⟨j + 1, by omega, ?_, ?_, ?_⟩
          · intro j2 hj2
            rcases j2 with _ | j3
            · rw [hmod, stopB_occupied hslot, hcmp]
            · rw [← path_step]
              exact hpre j3 (by omega)
          · rwa [← path_step]
          · rw [ho]
            rw [outcomeAt, outcomeAt, path_step,
              pathFirstDel_succ_occupied j hslot]
        · simp only [probeLoop, hslot, hcmp, if_true, Option.some.injEq] at h
          refine ⟨0, by omega, by omega, ?_, ?_⟩
          · rw [hmod, stopB_occupied hslot, hcmp]
          · rw [outcomeAt, hmod]
            simp [hslot, ← h]
      · simp only [probeLoop, hslot] at h
        obtain ⟨j, hj, hpre, hstop, ho⟩ := ih _ _ _ (Nat.mod_lt _ hc) h
        refine ⟨j + 1, by omega, ?_, ?_, ?_⟩
        · intro j2 hj2
          rcases j2 with _ | j3
          · rw [hmod]; exact stopB_deleted hslot
          · rw [← path_step]
            exact hpre j3 (by omega)
        · rwa [← path_step]
        · rw [ho]
          rw [outcomeAt, outcomeAt, path_step, pathFirstDel_succ_deleted j hslot]
          rcases hout : slotAt ht ((idx + (j + 1)) % ht.capacity) with _ | ⟨k2, v2⟩ | _ <;>
            simp [hout, orElse_orElse]

theorem least_stop_unique {p : Nat → Bool} {j j2 : Nat}
    (h1 : ∀ i, i < j → p i = false) (h2 : p j = true)
    (h3 : ∀ i, i < j2 → p i = false) (h4 : p j2 = true) : j = j2 := by
  rcases Nat.lt_trichotomy j j2 with h | h | h
  · rw [h3 j h] at h2; exact absurd h2 (by simp)
  · exact h
  · rw [h1 j2 h] at h4; exact absurd h4 (by simp)

theorem probeLoop_determined {ht : Table K V} {k : K} (fd : Option Nat)
    {fuel idx j : Nat}
    (hidx : idx < ht.capacity) (hj : j < fuel)
    (hpre : ∀ j2, j2 < j → stopB ht k ((idx + j2) % ht.capacity) = false)
    (hstop : stopB ht k ((idx + j) % ht.capacity) = true) :
    probeLoop ht k fuel idx fd = some (outcomeAt ht k idx fd j) := by
  have hsome := probeLoop_isSome fuel idx fd hidx ⟨j, hj, hstop⟩
  obtain ⟨o, ho⟩ := Option.isSome_iff_exists.mp hsome
  obtain ⟨j2, _, hpre2, hstop2, hout⟩ := probeLoop_inversion fuel idx fd o hidx ho
  have : j2 = j := least_stop_unique hpre2 hstop2 hpre hstop
  rw [ho, hout, this]

theorem outcomeAt_of_empty {ht : Table K V} {k : K} {idx j : Nat}
    (fd : Option Nat) (h : slotAt ht ((idx + j) % ht.capacity) = .empty) :
    outcomeAt ht k idx fd j =
      .miss ((idx + j) % ht.capacity)
        (fd.orElse fun _ => pathFirstDel ht idx j) := by
  rw [outcomeAt]
  simp only [h]

theorem outcomeAt_of_occupied {ht : Table K V} {k k1 : K} {v : V} {idx j : Nat}
    (fd : Option Nat) (h : slotAt ht ((idx + j) % ht.capacity) = .occupied k1 v) :
    outcomeAt ht k idx fd j = .hit ((idx + j) % ht.capacity) k1 v := by
  rw [outcomeAt]
  simp only [h]

/-! ### Probe results on well-formed tables -/

theorem none_orElse {α : Type} (f : Unit → Option α) :
    (none : Option α).orElse f = f () := rfl

theorem keyAbsent_iff {ht : Table K V} {k : K} :
    keyAbsent ht k = true ↔
      ∀ i, i < ht.entries.length → ∀ k1 v, slotAt ht i = .occupied k1 v →
        ht.compare k1 k = false := by
  constructor
  · intro h i hi k1 v hs
    rw [slotAt] at hs
    have hm : Slot.occupied k1 v ∈ ht.entries := hs ▸ getD_mem hi .empty
    have := List.all_eq_true.mp h _ hm
    simpa using this
  · intro h
    apply List.all_eq_true.mpr
    intro s hs
    rcases s with _ | ⟨k1, v⟩ | _
    · rfl
    · obtain ⟨i, hi, hget⟩ := List.mem_iff_getElem.mp hs
      have := h i hi k1 v (by rw [slotAt, getD_eq_get hi, hget])
      simp [this]
    · rfl

theorem not_keyAbsent {ht : Table K V} {k : K} (h : keyAbsent ht k = false) :
    ∃ i k1 v, i < ht.entries.length ∧ slotAt ht i = .occupied k1 v ∧
      ht.compare k1 k = true := by
  by_contra hno
  push_neg at hno
  rw [← Bool.not_eq_true, keyAbsent_iff] at h
  apply h
  intro i hi k1 v hs
  rcases hc : ht.compare k1 k with _ | _
  · rfl
  · exact absurd hc (hno i k1 v hi hs)

theorem probe_present {ht : Table K V} {k : K} {i : Nat} {v : V}
    (hwf : WF ht) (hcmp : CmpOk ht) (hi : i < ht.entries.length)
    (hs : slotAt ht i = .occupied k v) :
    probe ht k = some (.hit i k v) := by
  have hc : 0 < ht.capacity := by have := hwf.hcap; omega
  have hs0 : ht.hash k % ht.capacity < ht.capacity := Nat.mod_lt _ hc
  obtain ⟨j, hj, hij, hpre⟩ := hwf.hfind i k v hi hs
  have hstop : stopB ht k ((ht.hash k % ht.capacity + j) % ht.capacity) = true := by
    rw [hij, stopB_occupied hs]
    exact (hcmp k k).mpr rfl
  have hpre2 : ∀ j2, j2 < j →
      stopB ht k ((ht.hash k % ht.capacity + j2) % ht.capacity) = false := by
    intro j2 hj2
    have hj2c : j2 < ht.capacity := by omega
    have hne : (ht.hash k % ht.capacity + j2) % ht.capacity ≠ i := by
      intro hEq
      rw [← hij] at hEq
      exact absurd (path_inj hj2c hj hEq) (by omega)
    rcases h2 : slotAt ht ((ht.hash k % ht.capacity + j2) % ht.capacity) with
      _ | ⟨k2, v2⟩ | _
    · rw [slotAt] at h2
      exact absurd h2 (hpre j2 hj2)
    · rw [stopB_occupied h2]
      rcases hcc : ht.compare k2 k with _ | _
      · rfl
      · have hk2 : k2 = k := (hcmp _ _).mp hcc
        subst hk2
        have hlt : (ht.hash k2 % ht.capacity + j2) % ht.capacity <
            ht.entries.length := by
          rw [hwf.hlen]; exact Nat.mod_lt _ hc
        rw [slotAt] at h2 hs
        exact absurd rfl (hwf.hdup _ _ _ _ _ _ hlt hi hne h2 hs)
    · exact stopB_deleted h2
  have hdet := probeLoop_determined none hs0 hj hpre2 hstop
  rw [probe, hdet, outcomeAt_of_occupied none (hij.symm ▸ hs), hij]

theorem probe_absent {ht : Table K V} {k : K}
    (hwf : WF ht) (hcmp : CmpOk ht) (habs : keyAbsent ht k = true) :
    ∃ j, j < ht.capacity ∧
      probe ht k = some (.miss ((ht.hash k % ht.capacity + j) % ht.capacity)
        (pathFirstDel ht (ht.hash k % ht.capacity) j)) ∧
      slotAt ht ((ht.hash k % ht.capacity + j) % ht.capacity) = .empty ∧
      ∀ j2, j2 < j →
        slotAt ht ((ht.hash k % ht.capacity + j2) % ht.capacity) ≠ .empty := by
  have hc : 0 < ht.capacity := by have := hwf.hcap; omega
  have hs0 : ht.hash k % ht.capacity < ht.capacity := Nat.mod_lt _ hc
  have hcnt : occCount ht.entries + delCount ht.entries < ht.entries.length := by
    rw [hwf.hlen, ← hwf.hsize, ← hwf.hdel]
    exact hwf.hload
  obtain ⟨ie, hie, hemp⟩ := exists_empty_slot hcnt
  obtain ⟨j0, hj0, hj0e⟩ :=
    path_surj hc (by rwa [hwf.hlen] at hie) (ht.hash k % ht.capacity)
  have hstop0 : stopB ht k ((ht.hash k % ht.capacity + j0) % ht.capacity) = true := by
    rw [hj0e]
    exact stopB_empty (by rwa [slotAt])
  have hsome := probeLoop_isSome ht.capacity _ none hs0 ⟨j0, hj0, hstop0⟩
  obtain ⟨o, ho⟩ := Option.isSome_iff_exists.mp hsome
  obtain ⟨j, hj, hpre, hstop, hout⟩ :=
    probeLoop_inversion ht.capacity _ none o hs0 ho
  refine ⟨j, hj, ?_, ?_, ?_⟩
  · rcases hsl : slotAt ht ((ht.hash k % ht.capacity + j) % ht.capacity) with
      _ | ⟨k1, v1⟩ | _
    · rw [probe, ho, hout, outcomeAt_of_empty none hsl, none_orElse]
    · exfalso
      rw [stopB_occupied hsl] at hstop
      have hlt : (ht.hash k % ht.capacity + j) % ht.capacity <
          ht.entries.length := by
        rw [hwf.hlen]; exact Nat.mod_lt _ hc
      exact absurd hstop (by rw [keyAbsent_iff.mp habs _ hlt _ _ hsl]; simp)
    · rw [stopB_deleted hsl] at hstop
      exact absurd hstop (by simp)
  · rcases hsl : slotAt ht ((ht.hash k % ht.capacity + j) % ht.capacity) with
      _ | ⟨k1, v1⟩ | _
    · rfl
    · exfalso
      rw [stopB_occupied hsl] at hstop
      have hlt : (ht.hash k % ht.capacity + j) % ht.capacity <
          ht.entries.length := by
        rw [hwf.hlen]; exact Nat.mod_lt _ hc
      exact absurd hstop (by rw [keyAbsent_iff.mp habs _ hlt _ _ hsl]; simp)
    · rw [stopB_deleted hsl] at hstop
      exact absurd hstop (by simp)
  · intro j2 hj2 hempty
    have := hpre j2 hj2
    rw [stopB_empty hempty] at this
    exact absurd this (by simp)

theorem pathFirstDel_inversion {ht : Table K V} :
    ∀ j idx d, idx < ht.capacity → pathFirstDel ht idx j = some d →
      ∃ jd, jd < j ∧ (idx + jd) % ht.capacity = d ∧
        slotAt ht ((idx + jd) % ht.capacity) = .deleted ∧
        ∀ j2, j2 < jd → slotAt ht ((idx + j2) % ht.capacity) ≠ .deleted := by
  intro j
  induction j with
  | zero => intro idx d _ h; rw [pathFirstDel] at h; exact absurd h (by simp)
  | succ n ih =>
      intro idx d hidx h
      have hc : 0 < ht.capacity := by omega
      have hmod : (idx + 0) % ht.capacity = idx := by
        rw [Nat.add_zero, Nat.mod_eq_of_lt hidx]
      rcases hslot : slotAt ht idx with _ | ⟨k1, v1⟩ | _
      · rw [pathFirstDel_succ_empty n hslot] at h
        obtain ⟨jd, hjd, hde, hdel, hpre⟩ := ih _ _ (Nat.mod_lt _ hc) h
        refine ⟨jd + 1, by omega, ?_, ?_, ?_⟩
        · rwa [← path_step]
        · rwa [← path_step]
        · intro j2 hj2
          rcases j2 with _ | j3
          · rw [hmod, hslot]; simp
          · rw [← path_step]
            exact hpre j3 (by omega)
      · rw [pathFirstDel_succ_occupied n hslot] at h
        obtain ⟨jd, hjd, hde, hdel, hpre⟩ := ih _ _ (Nat.mod_lt _ hc) h
        refine ⟨jd + 1, by omega, ?_, ?_, ?_⟩
        · rwa [← path_step]
        · rwa [← path_step]
        · intro j2 hj2
          rcases j2 with _ | j3
          · rw [hmod, hslot]; simp
          · rw [← path_step]
            exact hpre j3 (by omega)
      · rw [pathFirstDel_succ_deleted n hslot] at h
        refine ⟨0, by omega, by rw [hmod]; exact (Option.some.injEq _ _).mp h,
          by rwa [hmod], by omega⟩

theorem pathFirstDel_none_inv {ht : Table K V} :
    ∀ j idx, idx < ht.capacity → pathFirstDel ht idx j = none →
      ∀ j2, j2 < j → slotAt ht ((idx + j2) % ht.capacity) ≠ .deleted := by
  intro j
  induction j with
  | zero => intro idx _ _ j2 hj2; omega
  | succ n ih =>
      intro idx hidx h j2 hj2
      have hc : 0 < ht.capacity := by omega
      have hmod : (idx + 0) % ht.capacity = idx := by
        rw [Nat.add_zero, Nat.mod_eq_of_lt hidx]
      rcases hslot : slotAt ht idx with _ | ⟨k1, v1⟩ | _
      · rw [pathFirstDel_succ_empty n hslot] at h
        rcases j2 with _ | j3
        · rw [hmod, hslot]; simp
        · rw [← path_step]
          exact ih _ (Nat.mod_lt _ hc) h j3 (by omega)
      · rw [pathFirstDel_succ_occupied n hslot] at h
        rcases j2 with _ | j3
        · rw [hmod, hslot]; simp
        · rw [← path_step]
          exact ih _ (Nat.mod_lt _ hc) h j3 (by omega)
      · rw [pathFirstDel_succ_deleted n hslot] at h
        exact absurd h (by simp)

/-! ### Preservation helpers -/

theorem getD_set_cases {es : List (Slot K V)} {i : Nat} (hi : i < es.length)
    (a : Slot K V) (x : Nat) :
    (es.set i a).getD x .empty = if x = i then a else es.getD x .empty := by
  by_cases h : x = i
  · subst h
    rw [getD_set_self hi]
    simp
  · rw [getD_set_ne fun hh => h hh.symm]
    simp [h]

theorem set_ne_empty_mono {es : List (Slot K V)} {tgt : Nat} {a : Slot K V}
    (ha : a ≠ .empty) (hi : tgt < es.length) :
    ∀ x, es.getD x .empty ≠ .empty → (es.set tgt a).getD x .empty ≠ .empty := by
  intro x hx
  rw [getD_set_cases hi a x]
  by_cases h : x = tgt
  · rw [if_pos h]; exact ha
  · rw [if_neg h]; exact hx

theorem findableFrom_mono {es es2 : List (Slot K V)} {c s i : Nat}
    (hne : ∀ x, es.getD x .empty ≠ .empty → es2.getD x .empty ≠ .empty)
    (h : FindableFrom es c s i) : FindableFrom es2 c s i := by
  obtain ⟨j, hj, hij, hpre⟩ := h
  exact ⟨j, hj, hij, fun j2 hj2 => hne _ (hpre j2 hj2)⟩

theorem hasKVL_val_unique {es : List (Slot K V)} (hdup : NoDupKeys es)
    {i : Nat} {k : K} {v : V} (hi : i < es.length)
    (hs : es.getD i .empty = .occupied k v) :
    ∀ v2, HasKVL es k v2 → v2 = v := by
  rintro v2 ⟨i2, hi2, hs2⟩
  by_cases h : i2 = i
  · subst h
    have := hs.symm.trans hs2
    injection this with _ hv
    exact hv.symm
  · exact absurd rfl (hdup i2 i k v2 k v hi2 hi h hs2 hs)

theorem key_not_present {ht : Table K V} {k : K} (hcmp : CmpOk ht)
    (habs : keyAbsent ht k = true) :
    ∀ i k2 v2, i < ht.entries.length →
      ht.entries.getD i .empty = .occupied k2 v2 → k2 ≠ k := by
  intro i k2 v2 hi hs hk
  subst hk
  have := keyAbsent_iff.mp habs i hi k2 v2 (by rwa [slotAt])
  rw [(hcmp k2 k2).mpr rfl] at this
  exact absurd this (by simp)

theorem getD_replicate_empty (n i : Nat) :
    (List.replicate n (Slot.empty : Slot K V)).getD i .empty = .empty := by
  rw [List.getD_eq_getElem?_getD, List.getElem?_replicate]
  split <;> rfl

theorem occCount_replicate (n : Nat) :
    occCount (List.replicate n (Slot.empty : Slot K V)) = 0 := by
  rw [occCount, List.countP_eq_zero]
  intro a ha
  rw [List.eq_of_mem_replicate ha]
  simp [isOcc]

theorem delCount_replicate (n : Nat) :
    delCount (List.replicate n (Slot.empty : Slot K V)) = 0 := by
  rw [delCount, List.countP_eq_zero]
  intro a ha
  rw [List.eq_of_mem_replicate ha]
  simp [isDel]

theorem create_WF (hash : K → Nat) (compare : K → K → Bool)
    (vc : Option (V → V)) : WF (ht_create hash compare vc) := by
  refine ⟨by simp [ht_create], by simp [ht_create], ?_, ?_, by simp [ht_create], ?_, ?_⟩
  · exact (occCount_replicate 16).symm
  · exact (delCount_replicate 16).symm
  · intro i j k v k2 v2 _ _ _ h1 _
    rw [show (ht_create hash compare vc : Table K V).entries =
      List.replicate 16 .empty from rfl, getD_replicate_empty] at h1
    exact absurd h1 (by simp)
  · intro i k v _ h1
    rw [show (ht_create hash compare vc : Table K V).entries =
      List.replicate 16 .empty from rfl, getD_replicate_empty] at h1
    exact absurd h1 (by simp)

theorem create_good {hash : K → Nat} {compare : K → K → Bool}
    {vc : Option (V → V)} (hc : ∀ a b, compare a b = true ↔ a = b) :
    Good (ht_create hash compare vc) :=
  ⟨create_WF hash compare vc, hc⟩

/-! ### Insertion into a non-occupied slot on the probe path -/

theorem insertSlot_spec {es : List (Slot K V)} {hash : K → Nat} {c : Nat}
    {k : K} {tgt jt : Nat} (v : V)
    (hlen : es.length = c) (hc : 0 < c)
    (hdup : NoDupKeys es) (hfind : FindableAll hash es c)
    (hknot : ∀ i k2 v2, i < es.length →
      es.getD i .empty = .occupied k2 v2 → k2 ≠ k)
    (hjt : jt < c) (htgt : (hash k % c + jt) % c = tgt)
    (hpre : ∀ j2, j2 < jt → es.getD ((hash k % c + j2) % c) .empty ≠ .empty)
    (hnocc : isOcc (es.getD tgt .empty) = false) :
    (es.set tgt (.occupied k v)).length = es.length ∧
    occCount (es.set tgt (.occupied k v)) = occCount es + 1 ∧
    delCount (es.set tgt (.occupied k v)) =
      delCount es - (if isDel (es.getD tgt .empty) then 1 else 0) ∧
    NoDupKeys (es.set tgt (.occupied k v)) ∧
    FindableAll hash (es.set tgt (.occupied k v)) c ∧
    HasKVL (es.set tgt (.occupied k v)) k v ∧
    (∀ k2 v2, k2 ≠ k →
      (HasKVL (es.set tgt (.occupied k v)) k2 v2 ↔ HasKVL es k2 v2)) ∧
    (∀ v2, HasKVL (es.set tgt (.occupied k v)) k v2 → v2 = v) := by
  have htl : tgt < es.length := by
    rw [hlen, ← htgt]
    exact Nat.mod_lt _ hc
  have hlen2 : (es.set tgt (.occupied k v)).length = es.length :=
    List.length_set es tgt _
  have hocc_ne : (Slot.occupied k v : Slot K V) ≠ .empty := by simp
  refine ⟨hlen2, ?_, ?_, ?_, ?_, ?_, ?_, ?_⟩
  · rw [occCount_set htl, hnocc]
    simp [isOcc]
  · rw [delCount_set htl]
    simp [isDel]
  · intro i1 j1 k1 v1 k2 v2 hi1 hj1 hne h1 h2
    rw [hlen2] at hi1 hj1
    rw [getD_set_cases htl _ i1] at h1
    rw [getD_set_cases htl _ j1] at h2
    by_cases e1 : i1 = tgt <;> by_cases e2 : j1 = tgt
    · exact absurd (e1.trans e2.symm) hne
    · rw [if_pos e1] at h1
      rw [if_neg e2] at h2
      injection h1 with hk1 hv1
      subst hk1
      intro hkk
      exact hknot j1 k2 v2 hj1 h2 hkk.symm
    · rw [if_neg e1] at h1
      rw [if_pos e2] at h2
      injection h2 with hk2 hv2
      subst hk2
      intro hkk
      exact hknot i1 k1 v1 hi1 h1 hkk
    · rw [if_neg e1] at h1
      rw [if_neg e2] at h2
      exact hdup i1 j1 k1 v1 k2 v2 hi1 hj1 hne h1 h2
  · intro i1 k1 v1 hi1 h1
    rw [hlen2] at hi1
    rw [getD_set_cases htl _ i1] at h1
    by_cases e1 : i1 = tgt
    · rw [if_pos e1] at h1
      injection h1 with hk1 hv1
      subst hk1
      subst e1
      refine ⟨jt, hjt, htgt, ?_⟩
      intro j2 hj2
      exact set_ne_empty_mono hocc_ne htl _ (hpre j2 hj2)
    · rw [if_neg e1] at h1
      exact findableFrom_mono (set_ne_empty_mono hocc_ne htl)
        (hfind i1 k1 v1 hi1 h1)
  · refine ⟨tgt, by rw [hlen2]; exact htl, ?_⟩
    rw [getD_set_cases htl _ tgt, if_pos rfl]
  · intro k2 v2 hk2
    constructor
    · rintro ⟨i2, hi2, h2⟩
      rw [hlen2] at hi2
      rw [getD_set_cases htl _ i2] at h2
      by_cases e2 : i2 = tgt
      · rw [if_pos e2] at h2
        injection h2 with hk hv
        exact absurd hk.symm hk2
      · rw [if_neg e2] at h2
        exact ⟨i2, hi2, h2⟩
    · rintro ⟨i2, hi2, h2⟩
      have e2 : i2 ≠ tgt := by
        intro he
        subst he
        rw [h2] at hnocc
        exact absurd hnocc (by simp [isOcc])
      exact ⟨i2, by rw [hlen2]; exact hi2,
        by rw [getD_set_cases htl _ i2, if_neg e2]; exact h2⟩
  · rintro v2 ⟨i2, hi2, h2⟩
    rw [hlen2] at hi2
    rw [getD_set_cases htl _ i2] at h2
    by_cases e2 : i2 = tgt
    · rw [if_pos e2] at h2
      injection h2 with hk hv
      exact hv.symm
    · rw [if_neg e2] at h2
      exact absurd rfl (hknot i2 k v2 hi2 h2)

theorem insert_at_spec {ht : Table K V} {k : K} {tgt jt : Nat} (v : V)
    (hwf : WF ht) (hcmp : CmpOk ht) (habs : keyAbsent ht k = true)
    (hjt : jt < ht.capacity)
    (htgt : (ht.hash k % ht.capacity + jt) % ht.capacity = tgt)
    (hpre : ∀ j2, j2 < jt →
      slotAt ht ((ht.hash k % ht.capacity + j2) % ht.capacity) ≠ .empty)
    (hnocc : isOcc (ht.entries.getD tgt .empty) = false) :
    (ht.entries.set tgt (.occupied k v)).length = ht.entries.length ∧
    occCount (ht.entries.set tgt (.occupied k v)) = occCount ht.entries + 1 ∧
    delCount (ht.entries.set tgt (.occupied k v)) =
      delCount ht.entries -
        (if isDel (ht.entries.getD tgt .empty) then 1 else 0) ∧
    NoDupKeys (ht.entries.set tgt (.occupied k v)) ∧
    FindableAll ht.hash (ht.entries.set tgt (.occupied k v)) ht.capacity ∧
    HasKVL (ht.entries.set tgt (.occupied k v)) k v ∧
    (∀ k2 v2, k2 ≠ k →
      (HasKVL (ht.entries.set tgt (.occupied k v)) k2 v2 ↔
        HasKVL ht.entries k2 v2)) ∧
    (∀ v2, HasKVL (ht.entries.set tgt (.occupied k v)) k v2 → v2 = v) :=
  insertSlot_spec v hwf.hlen (by have := hwf.hcap; omega) hwf.hdup hwf.hfind
    (key_not_present hcmp habs) hjt htgt hpre hnocc

/-! ### `set` after the resize check: full specification -/

theorem setInsert_insert_spec {ht : Table K V} {k : K} {v : V}
    (hwf : WF ht) (hcmp : CmpOk ht) (habs : keyAbsent ht k = true)
    (hroom : ht.size + ht.deleted_count + 1 < ht.capacity) :
    ∃ ht2, setInsert ht k v = some (.HT_SUCCESS, ht2) ∧ WF ht2 ∧
      ht2.hash = ht.hash ∧ ht2.compare = ht.compare ∧
      ht2.value_copy = ht.value_copy ∧ ht2.capacity = ht.capacity ∧
      ht2.size = ht.size + 1 ∧
      ht2.size + ht2.deleted_count ≤ ht.size + ht.deleted_count + 1 ∧
      HasKV ht2 k v ∧
      (∀ k2 v2, k2 ≠ k → (HasKV ht2 k2 v2 ↔ HasKV ht k2 v2)) ∧
      (∀ v2, HasKV ht2 k v2 → v2 = v) := by
  have hc : 0 < ht.capacity := by have := hwf.hcap; omega
  obtain ⟨j, hj, hprobe, hempty, hpre⟩ := probe_absent hwf hcmp habs
  rcases hfd : pathFirstDel ht (ht.hash k % ht.capacity) j with _ | d
  · have hprobe2 : probe ht k =
        some (.miss ((ht.hash k % ht.capacity + j) % ht.capacity) none) := by
      rw [hprobe, hfd]
    have hemptyD : ht.entries.getD
        ((ht.hash k % ht.capacity + j) % ht.capacity) .empty = .empty := hempty
    have hnocc : isOcc (ht.entries.getD
        ((ht.hash k % ht.capacity + j) % ht.capacity) .empty) = false := by
      rw [hemptyD]; rfl
    obtain ⟨hlen2, hoc, hdc, hdup2, hfind2, hhas, hiff, huniq⟩ :=
      insert_at_spec v hwf hcmp habs hj rfl hpre hnocc
    have heq : setInsert ht k v = some (.HT_SUCCESS,
        { ht with
          entries := ht.entries.set ((ht.hash k % ht.capacity + j) % ht.capacity) (.occupied k v)
          size := ht.size + 1 }) := by
      simp only [setInsert, hprobe2]
      rfl
    refine ⟨_, heq, ?_, rfl, rfl, rfl, rfl, rfl, ?_, hhas, hiff, huniq⟩
    · refine ⟨?_, hwf.hcap, ?_, ?_, ?_, hdup2, hfind2⟩
      · show (ht.entries.set ((ht.hash k % ht.capacity + j) % ht.capacity)
          (.occupied k v)).length = ht.capacity
        rw [hlen2, hwf.hlen]
      · show ht.size + 1 = occCount (ht.entries.set
          ((ht.hash k % ht.capacity + j) % ht.capacity) (.occupied k v))
        rw [hoc, hwf.hsize]
      · show ht.deleted_count = delCount (ht.entries.set
          ((ht.hash k % ht.capacity + j) % ht.capacity) (.occupied k v))
        rw [hdc, hemptyD]
        simp [isDel, hwf.hdel]
      · show ht.size + 1 + ht.deleted_count < ht.capacity
        omega
    · show ht.size + 1 + ht.deleted_count ≤ ht.size + ht.deleted_count + 1
      omega
  · obtain ⟨jd, hjd, hde, hdel, _⟩ :=
      pathFirstDel_inversion j _ d (Nat.mod_lt _ hc) hfd
    have hprobe2 : probe ht k =
        some (.miss ((ht.hash k % ht.capacity + j) % ht.capacity) (some d)) := by
      rw [hprobe, hfd]
    have hdl : d < ht.entries.length := by
      rw [hwf.hlen, ← hde]
      exact Nat.mod_lt _ hc
    have hdel2 : ht.entries.getD d .empty = .deleted := by
      rw [← hde]
      exact hdel
    have hnocc : isOcc (ht.entries.getD d .empty) = false := by
      rw [hdel2]; rfl
    have hdg : 1 ≤ ht.deleted_count := by
      rw [hwf.hdel]
      exact del_le_count hdl hdel2
    obtain ⟨hlen2, hoc, hdc, hdup2, hfind2, hhas, hiff, huniq⟩ :=
      insert_at_spec v hwf hcmp habs (show jd < ht.capacity by omega) hde
        (fun j2 hj2 => hpre j2 (by omega)) hnocc
    have heq : setInsert ht k v = some (.HT_SUCCESS,
        { ht with
          entries := ht.entries.set d (.occupied k v)
          size := ht.size + 1
          deleted_count := ht.deleted_count - 1 }) := by
      simp only [setInsert, hprobe2]
      rfl
    refine ⟨_, heq, ?_, rfl, rfl, rfl, rfl, rfl, ?_, hhas, hiff, huniq⟩
    · refine ⟨?_, hwf.hcap, ?_, ?_, ?_, hdup2, hfind2⟩
      · show (ht.entries.set d (.occupied k v)).length = ht.capacity
        rw [hlen2, hwf.hlen]
      · show ht.size + 1 = occCount (ht.entries.set d (.occupied k v))
        rw [hoc, hwf.hsize]
      · show ht.deleted_count - 1 = delCount (ht.entries.set d (.occupied k v))
        rw [hdc, hdel2, hwf.hdel]
        simp [isDel]
      · show ht.size + 1 + (ht.deleted_count - 1) < ht.capacity
        have := hwf.hload
        omega
    · show ht.size + 1 + (ht.deleted_count - 1) ≤ ht.size + ht.deleted_count + 1
      omega

theorem setInsert_update_spec {ht : Table K V} {k : K} {v v0 : V} {i : Nat}
    (hwf : WF ht) (hcmp : CmpOk ht) (hi : i < ht.entries.length)
    (hs : slotAt ht i = .occupied k v0) :
    ∃ ht2, setInsert ht k v = some (.HT_SUCCESS, ht2) ∧ WF ht2 ∧
      ht2.hash = ht.hash ∧ ht2.compare = ht.compare ∧
      ht2.value_copy = ht.value_copy ∧ ht2.capacity = ht.capacity ∧
      ht2.size = ht.size ∧ ht2.deleted_count = ht.deleted_count ∧
      HasKV ht2 k v ∧
      (∀ k2 v2, k2 ≠ k → (HasKV ht2 k2 v2 ↔ HasKV ht k2 v2)) ∧
      (∀ v2, HasKV ht2 k v2 → v2 = v) := by
  have hs2 : ht.entries.getD i .empty = .occupied k v0 := hs
  have hocc_ne : (Slot.occupied k v : Slot K V) ≠ .empty := by simp
  have hlen2 : (ht.entries.set i (.occupied k v)).length = ht.entries.length :=
    List.length_set ht.entries i _
  have hocc1 : 1 ≤ occCount ht.entries := occ_le_count hi hs2
  have heq : setInsert ht k v = some (.HT_SUCCESS,
      { ht with entries := ht.entries.set i (.occupied k v) }) := by
    simp only [setInsert, probe_present hwf hcmp hi hs]
  refine ⟨_, heq, ?_, rfl, rfl, rfl, rfl, rfl, rfl, ?_, ?_, ?_⟩
  · refine ⟨?_, hwf.hcap, ?_, ?_, hwf.hload, ?_, ?_⟩
    · show (ht.entries.set i (.occupied k v)).length = ht.capacity
      rw [hlen2, hwf.hlen]
    · show ht.size = occCount (ht.entries.set i (.occupied k v))
      rw [occCount_set hi, hs2, hwf.hsize]
      simp [isOcc]
      omega
    · show ht.deleted_count = delCount (ht.entries.set i (.occupied k v))
      rw [delCount_set hi, hs2, hwf.hdel]
      simp [isDel]
    · intro i1 j1 k1 v1 k2 v2 hi1 hj1 hne h1 h2
      rw [hlen2] at hi1 hj1
      rw [getD_set_cases hi _ i1] at h1
      rw [getD_set_cases hi _ j1] at h2
      by_cases e1 : i1 = i <;> by_cases e2 : j1 = i
      · exact absurd (e1.trans e2.symm) hne
      · rw [if_pos e1] at h1
        rw [if_neg e2] at h2
        injection h1 with hk1 hv1
        subst hk1
        subst e1
        exact hwf.hdup i1 j1 k v0 k2 v2 hi1 hj1 hne hs2 h2
      · rw [if_neg e1] at h1
        rw [if_pos e2] at h2
        injection h2 with hk2 hv2
        subst hk2
        subst e2
        exact hwf.hdup i1 j1 k1 v1 k v0 hi1 hj1 hne h1 hs2
      · rw [if_neg e1] at h1
        rw [if_neg e2] at h2
        exact hwf.hdup i1 j1 k1 v1 k2 v2 hi1 hj1 hne h1 h2
    · intro i1 k1 v1 hi1 h1
      rw [hlen2] at hi1
      rw [getD_set_cases hi _ i1] at h1
      by_cases e1 : i1 = i
      · rw [if_pos e1] at h1
        injection h1 with hk1 hv1
        subst hk1
        subst e1
        exact findableFrom_mono (set_ne_empty_mono hocc_ne hi)
          (hwf.hfind i1 k v0 hi1 hs2)
      · rw [if_neg e1] at h1
        exact findableFrom_mono (set_ne_empty_mono hocc_ne hi)
          (hwf.hfind i1 k1 v1 hi1 h1)
  · refine ⟨i, by rw [hlen2]; exact hi, ?_⟩
    rw [getD_set_cases hi _ i, if_pos rfl]
  · intro k2 v2 hk2
    constructor
    · rintro ⟨i2, hi2, h2⟩
      rw [hlen2] at hi2
      rw [getD_set_cases hi _ i2] at h2
      by_cases e2 : i2 = i
      · rw [if_pos e2] at h2
        injection h2 with hk hv
        exact absurd hk.symm hk2
      · rw [if_neg e2] at h2
        exact ⟨i2, hi2, h2⟩
    · rintro ⟨i2, hi2, h2⟩
      have e2 : i2 ≠ i := by
        intro he
        subst he
        rw [h2] at hs2
        injection hs2 with hk hv
        exact absurd hk hk2
      exact ⟨i2, by rw [hlen2]; exact hi2,
        by rw [getD_set_cases hi _ i2, if_neg e2]; exact h2⟩
  · rintro v2 ⟨i2, hi2, h2⟩
    rw [hlen2] at hi2
    rw [getD_set_cases hi _ i2] at h2
    by_cases e2 : i2 = i
    · rw [if_pos e2] at h2
      injection h2 with hk hv
      exact hv.symm
    · rw [if_neg e2] at h2
      exact absurd rfl (hwf.hdup i2 i k v2 k v0 hi2 hi e2 h2 hs2)

theorem setInsert_spec {ht : Table K V} {k : K} {v : V}
    (hwf : WF ht) (hcmp : CmpOk ht)
    (hroom : ht.size + ht.deleted_count + 1 < ht.capacity) :
    ∃ ht2, setInsert ht k v = some (.HT_SUCCESS, ht2) ∧ WF ht2 ∧
      ht2.hash = ht.hash ∧ ht2.compare = ht.compare ∧
      ht2.value_copy = ht.value_copy ∧ ht2.capacity = ht.capacity ∧
      ht2.size + ht2.deleted_count ≤ ht.size + ht.deleted_count + 1 ∧
      HasKV ht2 k v ∧
      (∀ k2 v2, k2 ≠ k → (HasKV ht2 k2 v2 ↔ HasKV ht k2 v2)) ∧
      (∀ v2, HasKV ht2 k v2 → v2 = v) := by
  rcases hab : keyAbsent ht k with _ | _
  · obtain ⟨i, k1, v1, hi, hsl, hcc⟩ := not_keyAbsent hab
    have hk1 : k1 = k := (hcmp _ _).mp hcc
    subst hk1
    obtain ⟨ht2, heq, hwf2, h1, h2, h3, h4, h5, h6, h7, h8, h9⟩ :=
      setInsert_update_spec hwf hcmp hi hsl
    exact ⟨ht2, heq, hwf2, h1, h2, h3, h4, by omega, h7, h8, h9⟩
  · obtain ⟨ht2, heq, hwf2, h1, h2, h3, h4, h5, h6, h7, h8, h9⟩ :=
      setInsert_insert_spec hwf hcmp hab hroom
    exact ⟨ht2, heq, hwf2, h1, h2, h3, h4, h6, h7, h8, h9⟩

/-! ### `get` and `delete` specifications -/

theorem get_found_spec [Zero V] {ht : Table K V} {k : K} {v : V} {i : Nat}
    (hwf : WF ht) (hcmp : CmpOk ht) (hi : i < ht.entries.length)
    (hs : slotAt ht i = .occupied k v) :
    ht_get ht k = some (applyCopy ht v) := by
  simp only [ht_get, probe_present hwf hcmp hi hs]

theorem get_absent_spec [Zero V] {ht : Table K V} {k : K}
    (hwf : WF ht) (hcmp : CmpOk ht) (habs : keyAbsent ht k = true) :
    ht_get ht k = some (0 : V) := by
  obtain ⟨j, hj, hprobe, _, _⟩ := probe_absent hwf hcmp habs
  simp only [ht_get, hprobe]

theorem keyAbsent_of_not_hasKV {ht : Table K V} {k : K} (hcmp : CmpOk ht)
    (h : ∀ v, ¬ HasKV ht k v) : keyAbsent ht k = true := by
  rw [keyAbsent_iff]
  intro i hi k1 v hs
  rcases hcc : ht.compare k1 k with _ | _
  · rfl
  · have hk1 : k1 = k := (hcmp _ _).mp hcc
    subst hk1
    exact absurd ⟨i, hi, hs⟩ (h v)

theorem delete_absent_spec {ht : Table K V} {k : K}
    (hwf : WF ht) (hcmp : CmpOk ht) (habs : keyAbsent ht k = true) :
    ht_delete ht k = some (false, ht) := by
  obtain ⟨j, hj, hprobe, _, _⟩ := probe_absent hwf hcmp habs
  simp only [ht_delete, hprobe]

theorem delete_found_spec {ht : Table K V} {k : K} {v0 : V} {i : Nat}
    (hwf : WF ht) (hcmp : CmpOk ht) (hi : i < ht.entries.length)
    (hs : slotAt ht i = .occupied k v0) :
    ∃ ht2, ht_delete ht k = some (true, ht2) ∧ WF ht2 ∧
      ht2.hash = ht.hash ∧ ht2.compare = ht.compare ∧
      ht2.value_copy = ht.value_copy ∧ ht2.capacity = ht.capacity ∧
      ht2.size = ht.size - 1 ∧ ht2.deleted_count = ht.deleted_count + 1 ∧
      (∀ v2, ¬ HasKV ht2 k v2) ∧
      (∀ k2 v2, k2 ≠ k → (HasKV ht2 k2 v2 ↔ HasKV ht k2 v2)) := by
  have hs2 : ht.entries.getD i .empty = .occupied k v0 := hs
  have hdel_ne : (Slot.deleted : Slot K V) ≠ .empty := by simp
  have hlen2 : (ht.entries.set i .deleted).length = ht.entries.length :=
    List.length_set ht.entries i _
  have hocc1 : 1 ≤ occCount ht.entries := occ_le_count hi hs2
  have heq : ht_delete ht k = some (true,
      { ht with
        entries := ht.entries.set i .deleted
        size := ht.size - 1
        deleted_count := ht.deleted_count + 1 }) := by
    simp only [ht_delete, probe_present hwf hcmp hi hs]
  refine ⟨_, heq, ?_, rfl, rfl, rfl, rfl, rfl, rfl, ?_, ?_⟩
  · refine ⟨?_, hwf.hcap, ?_, ?_, ?_, ?_, ?_⟩
    · show (ht.entries.set i .deleted).length = ht.capacity
      rw [hlen2, hwf.hlen]
    · show ht.size - 1 = occCount (ht.entries.set i .deleted)
      rw [occCount_set hi, hs2, hwf.hsize]
      simp [isOcc]
    · show ht.deleted_count + 1 = delCount (ht.entries.set i .deleted)
      rw [delCount_set hi, hs2, hwf.hdel]
      simp [isDel]
    · show ht.size - 1 + (ht.deleted_count + 1) < ht.capacity
      have h1 : 1 ≤ ht.size := by rw [hwf.hsize]; exact hocc1
      have := hwf.hload
      omega
    · intro i1 j1 k1 v1 k2 v2 hi1 hj1 hne h1 h2
      rw [hlen2] at hi1 hj1
      rw [getD_set_cases hi _ i1] at h1
      rw [getD_set_cases hi _ j1] at h2
      by_cases e1 : i1 = i
      · rw [if_pos e1] at h1
        exact absurd h1 (by simp)
      · rw [if_neg e1] at h1
        by_cases e2 : j1 = i
        · rw [if_pos e2] at h2
          exact absurd h2 (by simp)
        · rw [if_neg e2] at h2
          exact hwf.hdup i1 j1 k1 v1 k2 v2 hi1 hj1 hne h1 h2
    · intro i1 k1 v1 hi1 h1
      rw [hlen2] at hi1
      rw [getD_set_cases hi _ i1] at h1
      by_cases e1 : i1 = i
      · rw [if_pos e1] at h1
        exact absurd h1 (by simp)
      · rw [if_neg e1] at h1
        exact findableFrom_mono (set_ne_empty_mono hdel_ne hi)
          (hwf.hfind i1 k1 v1 hi1 h1)
  · rintro v2 ⟨i2, hi2, h2⟩
    rw [hlen2] at hi2
    rw [getD_set_cases hi _ i2] at h2
    by_cases e2 : i2 = i
    · rw [if_pos e2] at h2
      exact absurd h2 (by simp)
    · rw [if_neg e2] at h2
      exact absurd rfl (hwf.hdup i2 i k v2 k v0 hi2 hi e2 h2 hs2)
  · intro k2 v2 hk2
    constructor
    · rintro ⟨i2, hi2, h2⟩
      rw [hlen2] at hi2
      rw [getD_set_cases hi _ i2] at h2
      by_cases e2 : i2 = i
      · rw [if_pos e2] at h2
        exact absurd h2 (by simp)
      · rw [if_neg e2] at h2
        exact ⟨i2, hi2, h2⟩
    · rintro ⟨i2, hi2, h2⟩
      have e2 : i2 ≠ i := by
        intro he
        subst he
        rw [h2] at hs2
        injection hs2 with hk hv
        exact absurd hk hk2
      exact ⟨i2, by rw [hlen2]; exact hi2,
        by rw [getD_set_cases hi _ i2, if_neg e2]; exact h2⟩

/-! ### `clear` specification -/

theorem clear_spec {ht : Table K V} (hwf : WF ht) :
    WF (ht_clear ht) ∧ (ht_clear ht).capacity = ht.capacity ∧
    (ht_clear ht).size = 0 ∧ (ht_clear ht).deleted_count = 0 ∧
    (ht_clear ht).hash = ht.hash ∧ (ht_clear ht).compare = ht.compare ∧
    (ht_clear ht).value_copy = ht.value_copy ∧
    ∀ k v, ¬ HasKV (ht_clear ht) k v := by
  refine ⟨⟨?_, hwf.hcap, ?_, ?_, ?_, ?_, ?_⟩, rfl, rfl, rfl, rfl, rfl, rfl, ?_⟩
  · show (List.replicate ht.capacity (Slot.empty : Slot K V)).length = ht.capacity
    simp
  · exact (occCount_replicate ht.capacity).symm
  · exact (delCount_replicate ht.capacity).symm
  · show 0 + 0 < ht.capacity
    have := hwf.hcap
    omega
  · intro i j k v k2 v2 _ _ _ h1 _
    rw [show (ht_clear ht).entries = List.replicate ht.capacity .empty from rfl,
      getD_replicate_empty] at h1
    exact absurd h1 (by simp)
  · intro i k v _ h1
    rw [show (ht_clear ht).entries = List.replicate ht.capacity .empty from rfl,
      getD_replicate_empty] at h1
    exact absurd h1 (by simp)
  · rintro k v ⟨i, hi, h1⟩
    rw [show (ht_clear ht).entries = List.replicate ht.capacity .empty from rfl,
      getD_replicate_empty] at h1
    exact absurd h1 (by simp)

/-! ### Characterisation of the rehash loops -/

theorem exists_nonocc_slot {es : List (Slot K V)}
    (h : occCount es < es.length) :
    ∃ i, i < es.length ∧ isOcc (es.getD i .empty) = false := by
  by_contra hno
  push_neg at hno
  have hall : ∀ a ∈ es, isOcc a = true := by
    intro a ha
    obtain ⟨i, hi, hget⟩ := List.mem_iff_getElem.mp ha
    have := hno i hi
    rw [getD_eq_get hi, hget] at this
    simpa using this
  have : es.countP isOcc = es.length := List.countP_eq_length.mpr hall
  rw [occCount] at h
  omega

theorem rehashInsert_det {es : List (Slot K V)} {c : Nat} (k : K) (v : V) :
    ∀ fuel idx, idx < c → es.length = c →
      (∃ j, j < fuel ∧ isOcc (es.getD ((idx + j) % c) .empty) = false) →
      ∃ j, j < fuel ∧
        (∀ j2, j2 < j → isOcc (es.getD ((idx + j2) % c) .empty) = true) ∧
        isOcc (es.getD ((idx + j) % c) .empty) = false ∧
        rehashInsert es c k v fuel idx =
          some (es.set ((idx + j) % c) (.occupied k v)) := by
  intro fuel
  induction fuel with
  | zero => intro idx _ _ ⟨j, hj, _⟩; omega
  | succ n ih =>
      intro idx hidx hlen ⟨j, hj, hnonocc⟩
      have hc : 0 < c := by omega
      have hmod : (idx + 0) % c = idx := by
        rw [Nat.add_zero, Nat.mod_eq_of_lt hidx]
      rcases hslot : es.getD idx .empty with _ | ⟨k1, v1⟩ | _
      · refine ⟨0, by omega, by omega, by rw [hmod, hslot]; rfl, ?_⟩
        rw [hmod]
        simp only [rehashInsert, hslot]
      · rcases j with _ | j2
        · rw [hmod, hslot] at hnonocc
          exact absurd hnonocc (by simp [isOcc])
        · obtain ⟨j3, hj3, hpre, hend, hrec⟩ :=
            ih ((idx + 1) % c) (Nat.mod_lt _ hc) hlen
              ⟨j2, by omega, by rwa [path_step]⟩
          refine ⟨j3 + 1, by omega, ?_, by rwa [← path_step], ?_⟩
          · intro j4 hj4
            rcases j4 with _ | j5
            · rw [hmod, hslot]
              rfl
            · rw [← path_step]
              exact hpre j5 (by omega)
          · have hstep : ((idx + 1) % c + j3) % c = (idx + (j3 + 1)) % c :=
              path_step idx j3
            rw [hstep] at hrec
            simp only [rehashInsert, hslot]
            exact hrec
      · refine ⟨0, by omega, by omega, by rw [hmod, hslot]; rfl, ?_⟩
        rw [hmod]
        simp only [rehashInsert, hslot]

theorem noDupKeys_cons {s : Slot K V} {rest : List (Slot K V)}
    (h : NoDupKeys (s :: rest)) : NoDupKeys rest := by
  intro i j k v k2 v2 hi hj hne h1 h2
  refine h (i + 1) (j + 1) k v k2 v2 (by simpa using hi) (by simpa using hj)
    (by omega) ?_ ?_
  · rwa [List.getD_cons_succ]
  · rwa [List.getD_cons_succ]

theorem noDupKeys_head {k : K} {v : V} {rest : List (Slot K V)}
    (h : NoDupKeys (.occupied k v :: rest)) :
    ∀ i k2 v2, i < rest.length → rest.getD i .empty = .occupied k2 v2 →
      k2 ≠ k := by
  intro i k2 v2 hi h2 hk
  subst hk
  refine h (i + 1) 0 k2 v2 k2 v (by simpa using hi) (by simp) (by omega) ?_ ?_ rfl
  · rwa [List.getD_cons_succ]
  · rw [List.getD_cons_zero]

theorem isOcc_ne_empty {s : Slot K V} (h : isOcc s = true) : s ≠ .empty := by
  cases s <;> simp_all [isOcc]

theorem delCount_zero_not_deleted {es : List (Slot K V)} (h : delCount es = 0)
    {i : Nat} (hi : i < es.length) : es.getD i .empty ≠ .deleted := by
  intro hd
  have := del_le_count hi hd
  omega

theorem hasKVL_iff_mem {es : List (Slot K V)} {k : K} {v : V} :
    HasKVL es k v ↔ Slot.occupied k v ∈ es := by
  constructor
  · rintro ⟨i, hi, h⟩
    exact h ▸ getD_mem hi .empty
  · intro h
    obtain ⟨i, hi, hget⟩ := List.mem_iff_getElem.mp h
    exact ⟨i, hi, by rw [getD_eq_get hi, hget]⟩

theorem rehashList_spec {hash : K → Nat} {c : Nat} (hc : 0 < c) :
    ∀ (old : List (Slot K V)), NoDupKeys old →
    ∀ (es : List (Slot K V)) (sz : Nat),
      es.length = c → delCount es = 0 → NoDupKeys es → FindableAll hash es c →
      (∀ k2 v2 v3, HasKVL es k2 v2 → Slot.occupied k2 v3 ∉ old) →
      occCount es + occCount old < c →
      ∃ es2, rehashList hash c old (es, sz) = some (es2, sz + occCount old) ∧
        es2.length = c ∧ delCount es2 = 0 ∧
        occCount es2 = occCount es + occCount old ∧
        NoDupKeys es2 ∧ FindableAll hash es2 c ∧
        (∀ k2 v2, HasKVL es2 k2 v2 ↔ HasKVL es k2 v2 ∨
          Slot.occupied k2 v2 ∈ old) := by
  intro old
  induction old with
  | nil =>
      intro _ es sz hlen hdc hdup hfind _ _
      refine ⟨es, ?_, hlen, hdc, ?_, hdup, hfind, ?_⟩
      · simp [rehashList, occCount]
      · simp [occCount]
      · intro k2 v2
        simp
  | cons s rest ih =>
      intro hdupold es sz hlen hdc hdup hfind hdisj hcnt
      rcases s with _ | ⟨k, v⟩ | _
      · have hocc_cons : occCount (Slot.empty :: rest) = occCount rest := by
          simp [occCount, List.countP_cons, isOcc]
        rw [hocc_cons] at hcnt
        obtain ⟨es2, hrun, h1, h2, h3, h4, h5, h6⟩ :=
          ih (noDupKeys_cons hdupold) es sz hlen hdc hdup hfind
            (fun k2 v2 v3 h hm => hdisj k2 v2 v3 h (List.mem_cons_of_mem _ hm))
            hcnt
        refine ⟨es2, ?_, h1, h2, ?_, h4, h5, ?_⟩
        · simp only [rehashList]
          rw [hocc_cons]
          exact hrun
        · rw [hocc_cons]
          exact h3
        · intro k2 v2
          rw [h6]
          simp [List.mem_cons]
      · have hocc_cons : occCount (Slot.occupied k v :: rest) =
            occCount rest + 1 := by
          simp [occCount, List.countP_cons, isOcc]
        have hocc_lt : occCount es < c := by omega
        obtain ⟨inoc, hinoc, hnoc⟩ := exists_nonocc_slot (by
          rw [hlen]; exact hocc_lt)
        obtain ⟨j0, hj0, hj0e⟩ := path_surj hc (hlen ▸ hinoc) (hash k % c)
        obtain ⟨j, hjc, hpre, hend, hins⟩ :=
          rehashInsert_det k v c (hash k % c) (Nat.mod_lt _ hc) hlen
            ⟨j0, hj0, by rwa [hj0e]⟩
        have htgtlt : (hash k % c + j) % c < es.length := by
          rw [hlen]
          exact Nat.mod_lt _ hc
        have htgt_empty : es.getD ((hash k % c + j) % c) .empty = .empty := by
          rcases hsl : es.getD ((hash k % c + j) % c) .empty with _ | ⟨k1, v1⟩ | _
          · rfl
          · rw [hsl] at hend
            exact absurd hend (by simp [isOcc])
          · exact absurd hsl (delCount_zero_not_deleted hdc htgtlt)
        have hknot : ∀ i k2 v2, i < es.length →
            es.getD i .empty = .occupied k2 v2 → k2 ≠ k := by
          intro i k2 v2 hi hs hk
          subst hk
          exact hdisj k2 v2 v ⟨i, hi, hs⟩ (List.mem_cons_self _ _)
        obtain ⟨hlen2, hoc2, hdc2, hdup2, hfind2, hhas2, hiff2, huniq2⟩ :=
          insertSlot_spec v hlen hc hdup hfind hknot hjc rfl
            (fun j2 hj2 => isOcc_ne_empty (hpre j2 hj2)) hend
        have hdc1 : delCount (es.set ((hash k % c + j) % c)
            (.occupied k v)) = 0 := by
          rw [hdc2, htgt_empty]
          simp [isDel, hdc]
        have hdisj1 : ∀ k2 v2 v3,
            HasKVL (es.set ((hash k % c + j) % c) (.occupied k v)) k2 v2 →
            Slot.occupied k2 v3 ∉ rest := by
          intro k2 v2 v3 hkv hm
          by_cases hk2 : k2 = k
          · subst hk2
            obtain ⟨i2, hi2, hg⟩ := List.mem_iff_getElem.mp hm
            exact absurd rfl (noDupKeys_head hdupold i2 k2 v3 hi2
              (by rw [getD_eq_get hi2, hg]))
          · exact hdisj k2 v2 v3 ((hiff2 k2 v2 hk2).mp hkv)
              (List.mem_cons_of_mem _ hm)
        have hcnt1 : occCount (es.set ((hash k % c + j) % c)
            (.occupied k v)) + occCount rest < c := by
          rw [hoc2]
          omega
        obtain ⟨es2, hrun, h1, h2, h3, h4, h5, h6⟩ :=
          ih (noDupKeys_cons hdupold) _ (sz + 1) (hlen2.trans hlen) hdc1
            hdup2 hfind2 hdisj1 hcnt1
        refine ⟨es2, ?_, h1, h2, ?_, h4, h5, ?_⟩
        · simp only [rehashList, hins]
          rw [hrun, show sz + 1 + occCount rest =
            sz + occCount (Slot.occupied k v :: rest) by rw [hocc_cons]; omega]
        · rw [h3, hoc2, hocc_cons]
          omega
        · intro k2 v2
          rw [h6]
          by_cases hk2 : k2 = k
          · subst hk2
            constructor
            · rintro (h | h)
              · rw [huniq2 v2 h]
                exact Or.inr (List.mem_cons_self _ _)
              · exact Or.inr (List.mem_cons_of_mem _ h)
            · rintro (h | h)
              · exact absurd (List.mem_cons_self (Slot.occupied k2 v) rest)
                  (hdisj k2 v2 v h)
              · rw [List.mem_cons] at h
                rcases h with h | h
                · injection h with hk hv
                  subst hv
                  exact Or.inl hhas2
                · exact Or.inr h
          · rw [hiff2 k2 v2 hk2]
            simp [List.mem_cons, hk2]
      · have hocc_cons : occCount (Slot.deleted :: rest) = occCount rest := by
          simp [occCount, List.countP_cons, isOcc]
        rw [hocc_cons] at hcnt
        obtain ⟨es2, hrun, h1, h2, h3, h4, h5, h6⟩ :=
          ih (noDupKeys_cons hdupold) es sz hlen hdc hdup hfind
            (fun k2 v2 v3 h hm => hdisj k2 v2 v3 h (List.mem_cons_of_mem _ hm))
            hcnt
        refine ⟨es2, ?_, h1, h2, ?_, h4, h5, ?_⟩
        · simp only [rehashList]
          rw [hocc_cons]
          exact hrun
        · rw [hocc_cons]
          exact h3
        · intro k2 v2
          rw [h6]
          simp [List.mem_cons]

/-! ### `resize` specification -/

theorem resize_spec {ht : Table K V} {nc : Nat} (hwf : WF ht)
    (hnc : ht.capacity < nc) :
    ∃ ht2, ht_resize true ht nc = some (.HT_SUCCESS, ht2) ∧ WF ht2 ∧
      ht2.hash = ht.hash ∧ ht2.compare = ht.compare ∧
      ht2.value_copy = ht.value_copy ∧
      ht2.capacity = nc ∧ ht2.size = ht.size ∧ ht2.deleted_count = 0 ∧
      (∀ k v, HasKV ht2 k v ↔ HasKV ht k v) := by
  have hc : 0 < nc := by have := hwf.hcap; omega
  have hlenr : (List.replicate nc (Slot.empty : Slot K V)).length = nc := by simp
  have hdupr : NoDupKeys (List.replicate nc (Slot.empty : Slot K V)) := by
    intro i j k v k2 v2 _ _ _ h1 _
    rw [getD_replicate_empty] at h1
    exact absurd h1 (by simp)
  have hfindr : FindableAll ht.hash (List.replicate nc (Slot.empty : Slot K V)) nc := by
    intro i k v _ h1
    rw [getD_replicate_empty] at h1
    exact absurd h1 (by simp)
  have hdisjr : ∀ k2 v2 v3,
      HasKVL (List.replicate nc (Slot.empty : Slot K V)) k2 v2 →
      Slot.occupied k2 v3 ∉ ht.entries := by
    rintro k2 v2 v3 ⟨i, _, h1⟩
    rw [getD_replicate_empty] at h1
    exact absurd h1 (by simp)
  have hcntr : occCount (List.replicate nc (Slot.empty : Slot K V)) +
      occCount ht.entries < nc := by
    rw [occCount_replicate, ← hwf.hsize]
    have := hwf.hload
    omega
  obtain ⟨es2, hrun, h1, h2, h3, h4, h5, h6⟩ :=
    rehashList_spec hc ht.entries hwf.hdup
      (List.replicate nc (Slot.empty : Slot K V)) 0
      hlenr (delCount_replicate nc) hdupr hfindr hdisjr hcntr
  have heq : ht_resize true ht nc = some (.HT_SUCCESS,
      { ht with
        entries := es2
        capacity := nc
        size := 0 + occCount ht.entries
        deleted_count := 0 }) := by
    simp only [ht_resize, hrun, if_true]
  refine ⟨_, heq, ?_, rfl, rfl, rfl, rfl, ?_, rfl, ?_⟩
  · refine ⟨h1, ?_, ?_, h2.symm, ?_, h4, h5⟩
    · show 16 ≤ nc
      have := hwf.hcap
      omega
    · show 0 + occCount ht.entries = occCount es2
      rw [h3, occCount_replicate]
    · show 0 + occCount ht.entries + 0 < nc
      rw [occCount_replicate] at hcntr
      omega
  · show 0 + occCount ht.entries = ht.size
    rw [hwf.hsize]
    omega
  · intro k v
    constructor
    · intro h
      rcases (h6 k v).mp h with h | h
      · obtain ⟨i, _, h1⟩ := h
        rw [getD_replicate_empty] at h1
        exact absurd h1 (by simp)
      · exact hasKVL_iff_mem.mpr h
    · intro h
      exact (h6 k v).mpr (Or.inr (hasKVL_iff_mem.mp h))

/-! ### Full `set` specification and preservation of well-formedness -/

theorem no_trigger_room {ht : Table K V} (hwf : WF ht)
    (htr : resizeTrigger ht = false) :
    ht.size + ht.deleted_count + 1 < ht.capacity := by
  rw [resizeTrigger] at htr
  simp only [Bool.or_eq_false_iff, decide_eq_false_iff_not, not_lt] at htr
  have := hwf.hcap
  omega

theorem some_pair_inj {α β : Type} {a a2 : α} {b b2 : β}
    (h : (some (a, b) : Option (α × β)) = some (a2, b2)) : a = a2 ∧ b = b2 := by
  injection h with h1
  injection h1 with h2 h3
  exact ⟨h2, h3⟩

theorem set_spec {ht : Table K V} {k : K} {v : V}
    (hwf : WF ht) (hcmp : CmpOk ht) :
    ∃ ht2, ht_set true ht k v = some (.HT_SUCCESS, ht2) ∧ WF ht2 ∧ CmpOk ht2 ∧
      ht2.hash = ht.hash ∧ ht2.compare = ht.compare ∧
      ht2.value_copy = ht.value_copy ∧
      HasKV ht2 k v ∧
      (∀ k2 v2, k2 ≠ k → (HasKV ht2 k2 v2 ↔ HasKV ht k2 v2)) ∧
      (∀ v2, HasKV ht2 k v2 → v2 = v) := by
  rcases htr : resizeTrigger ht with _ | _
  · obtain ⟨ht2, heq, hwf2, f1, f2, f3, f4, hb, hhas, hiff, huniq⟩ :=
      setInsert_spec hwf hcmp (no_trigger_room hwf htr)
    refine ⟨ht2, ?_, hwf2, ?_, f1, f2, f3, hhas, hiff, huniq⟩
    · simp only [ht_set, htr, Bool.false_eq_true, if_false]
      exact heq
    · intro a b
      rw [f2]
      exact hcmp a b
  · have hnc : ht.capacity < ht.capacity * 2 := by have := hwf.hcap; omega
    obtain ⟨htr2, heqr, hwfr, g1, g2, g3, g4, g5, g6, hkv⟩ := resize_spec hwf hnc
    have hcmpr : CmpOk htr2 := fun a b => by rw [g2]; exact hcmp a b
    have hroom : htr2.size + htr2.deleted_count + 1 < htr2.capacity := by
      rw [g4, g5, g6]
      have := hwf.hload
      have := hwf.hcap
      omega
    obtain ⟨ht2, heq2, hwf2, f1, f2, f3, f4, hb, hhas, hiff, huniq⟩ :=
      setInsert_spec hwfr hcmpr hroom
    refine ⟨ht2, ?_, hwf2, ?_, f1.trans g1, f2.trans g2, f3.trans g3, hhas,
      ?_, huniq⟩
    · simp only [ht_set, htr, if_true, heqr]
      exact heq2
    · intro a b
      rw [f2, g2]
      exact hcmp a b
    · intro k2 v2 h
      exact (hiff k2 v2 h).trans (hkv k2 v2)

theorem set_pres {a : Bool} {ht : Table K V} {k : K} {v : V} {st : ht_status}
    {ht2 : Table K V} (hg : Good ht) (h : ht_set a ht k v = some (st, ht2)) :
    Good ht2 ∧ ht2.hash = ht.hash ∧ ht2.compare = ht.compare ∧
      ht2.value_copy = ht.value_copy := by
  obtain ⟨hwf, hcmp⟩ := hg
  rcases a with _ | _
  · rcases htr : resizeTrigger ht with _ | _
    · obtain ⟨ht3, heq, hwf2, f1, f2, f3, _, _, _, _, _⟩ :=
        setInsert_spec hwf hcmp (no_trigger_room hwf htr)
      simp only [ht_set, htr, Bool.false_eq_true, if_false] at h
      rw [heq] at h
      obtain ⟨hst, hht⟩ := some_pair_inj h
      subst hht
      exact ⟨⟨hwf2, fun x y => by rw [f2]; exact hcmp x y⟩, f1, f2, f3⟩
    · simp only [ht_set, htr, if_true, ht_resize, Bool.false_eq_true,
        if_false] at h
      obtain ⟨hst, hht⟩ := some_pair_inj h
      subst hht
      exact ⟨⟨hwf, hcmp⟩, rfl, rfl, rfl⟩
  · obtain ⟨ht3, heq, hwf2, hcmp2, f1, f2, f3, _, _, _⟩ := set_spec hwf hcmp
    rw [heq] at h
    obtain ⟨hst, hht⟩ := some_pair_inj h
    subst hht
    exact ⟨⟨hwf2, hcmp2⟩, f1, f2, f3⟩

theorem delete_pres {ht : Table K V} {k : K} {b : Bool} {ht2 : Table K V}
    (hg : Good ht) (h : ht_delete ht k = some (b, ht2)) :
    Good ht2 ∧ ht2.hash = ht.hash ∧ ht2.compare = ht.compare ∧
      ht2.value_copy = ht.value_copy := by
  obtain ⟨hwf, hcmp⟩ := hg
  rcases hab : keyAbsent ht k with _ | _
  · obtain ⟨i, k1, v1, hi, hsl, hcc⟩ := not_keyAbsent hab
    have hk1 : k1 = k := (hcmp _ _).mp hcc
    subst hk1
    obtain ⟨ht3, heq, hwf2, f1, f2, f3, _, _, _, _, _⟩ :=
      delete_found_spec hwf hcmp hi hsl
    rw [heq] at h
    obtain ⟨hb, hht⟩ := some_pair_inj h
    subst hht
    exact ⟨⟨hwf2, fun x y => by rw [f2]; exact hcmp x y⟩, f1, f2, f3⟩
  · rw [delete_absent_spec hwf hcmp hab] at h
    obtain ⟨hb, hht⟩ := some_pair_inj h
    subst hht
    exact ⟨⟨hwf, hcmp⟩, rfl, rfl, rfl⟩

theorem clear_pres {ht : Table K V} (hg : Good ht) : Good (ht_clear ht) := by
  obtain ⟨hwf, hcmp⟩ := hg
  obtain ⟨hwf2, _⟩ := clear_spec hwf
  exact ⟨hwf2, hcmp⟩

theorem reserve_pres {a : Bool} {ht : Table K V} {n : Nat} {st : ht_status}
    {ht2 : Table K V} (hg : Good ht) (h : ht_reserve a ht n = some (st, ht2)) :
    Good ht2 ∧ ht2.hash = ht.hash ∧ ht2.compare = ht.compare ∧
      ht2.value_copy = ht.value_copy := by
  obtain ⟨hwf, hcmp⟩ := hg
  by_cases hle : n ≤ ht.capacity
  · rw [ht_reserve, if_pos hle] at h
    obtain ⟨hst, hht⟩ := some_pair_inj h
    subst hht
    exact ⟨⟨hwf, hcmp⟩, rfl, rfl, rfl⟩
  · have hlt : ht.capacity < n := by omega
    have hcond : ¬ (n < ht.size + ht.deleted_count) := by
      have := hwf.hload
      omega
    rw [ht_reserve, if_neg hle, if_neg hcond] at h
    rcases a with _ | _
    · rw [ht_resize] at h
      simp only [Bool.false_eq_true, if_false] at h
      obtain ⟨hst, hht⟩ := some_pair_inj h
      subst hht
      exact ⟨⟨hwf, hcmp⟩, rfl, rfl, rfl⟩
    · obtain ⟨ht3, heq, hwf2, g1, g2, g3, _, _, _, _⟩ := resize_spec hwf hlt
      rw [heq] at h
      obtain ⟨hst, hht⟩ := some_pair_inj h
      subst hht
      exact ⟨⟨hwf2, fun x y => by rw [g2]; exact hcmp x y⟩, g1, g2, g3⟩

theorem runOp_good {ht : Table K V} {op : Op K V} {ht2 : Table K V}
    (hg : Good ht) (h : runOp ht op = some ht2) :
    Good ht2 ∧ ht2.hash = ht.hash ∧ ht2.compare = ht.compare ∧
      ht2.value_copy = ht.value_copy := by
  rcases op with ⟨a, k, v⟩ | k | _ | ⟨a, n⟩
  · rw [runOp] at h
    rcases hset : ht_set a ht k v with _ | ⟨st, ht3⟩
    · rw [hset] at h
      exact absurd h (by simp)
    · rw [hset] at h
      simp only [Option.map_some'] at h
      injection h with hht
      subst hht
      exact set_pres hg hset
  · rw [runOp] at h
    rcases hdel : ht_delete ht k with _ | ⟨b, ht3⟩
    · rw [hdel] at h
      exact absurd h (by simp)
    · rw [hdel] at h
      simp only [Option.map_some'] at h
      injection h with hht
      subst hht
      exact delete_pres hg hdel
  · rw [runOp] at h
    injection h with hht
    subst hht
    exact ⟨clear_pres hg, rfl, rfl, rfl⟩
  · rw [runOp] at h
    rcases hres : ht_reserve a ht n with _ | ⟨st, ht3⟩
    · rw [hres] at h
      exact absurd h (by simp)
    · rw [hres] at h
      simp only [Option.map_some'] at h
      injection h with hht
      subst hht
      exact reserve_pres hg hres

theorem replay_good {ht : Table K V} :
    ∀ (ops : List (Op K V)) (ht2 : Table K V), Good ht →
      replay ht ops = some ht2 →
      Good ht2 ∧ ht2.hash = ht.hash ∧ ht2.compare = ht.compare ∧
        ht2.value_copy = ht.value_copy := by
  intro ops
  induction ops generalizing ht with
  | nil =>
      intro ht2 hg h
      rw [replay] at h
      injection h with hht
      subst hht
      exact ⟨hg, rfl, rfl, rfl⟩
  | cons op ops ih =>
      intro ht2 hg h
      rw [replay] at h
      rcases hop : runOp ht op with _ | ht1
      · rw [hop] at h
        exact absurd h (by simp)
      · rw [hop] at h
        simp only [Option.some_bind] at h
        obtain ⟨hg1, e1, e2, e3⟩ := runOp_good hg hop
        obtain ⟨hg2, d1, d2, d3⟩ := ih ht2 hg1 h
        exact ⟨hg2, d1.trans e1, d2.trans e2, d3.trans e3⟩

/-! ### Simulation against the reference map -/

theorem create_model {hash : K → Nat} {compare : K → K → Bool}
    {vc : Option (V → V)} :
    ModelMatch (ht_create hash compare vc) (fun _ => none) := by
  intro k v
  constructor
  · rintro ⟨i, hi, h1⟩
    rw [show (ht_create hash compare vc : Table K V).entries =
      List.replicate 16 .empty from rfl, getD_replicate_empty] at h1
    exact absurd h1 (by simp)
  · intro h
    exact absurd h (by simp)

theorem set_model [DecidableEq K] {ht : Table K V} {k : K} {v : V}
    {m : K → Option V} (hg : Good ht) (hm : ModelMatch ht m) :
    ∃ ht2, ht_set true ht k v = some (.HT_SUCCESS, ht2) ∧ Good ht2 ∧
      ModelMatch ht2 (fun q => if q = k then some v else m q) ∧
      ht2.value_copy = ht.value_copy := by
  obtain ⟨hwf, hcmp⟩ := hg
  obtain ⟨ht2, heq, hwf2, hcmp2, f1, f2, f3, hhas, hiff, huniq⟩ :=
    set_spec hwf hcmp
  refine ⟨ht2, heq, ⟨hwf2, hcmp2⟩, ?_, f3⟩
  intro k2 v2
  show HasKV ht2 k2 v2 ↔ (if k2 = k then some v else m k2) = some v2
  by_cases hk2 : k2 = k
  · subst hk2
    rw [if_pos rfl]
    constructor
    · intro h
      rw [huniq v2 h]
    · intro h
      injection h with h
      rw [← h]
      exact hhas
  · rw [if_neg hk2]
    exact (hiff k2 v2 hk2).trans (hm k2 v2)

theorem delete_model [DecidableEq K] {ht : Table K V} {k : K}
    {m : K → Option V} (hg : Good ht) (hm : ModelMatch ht m) :
    ∃ b ht2, ht_delete ht k = some (b, ht2) ∧ Good ht2 ∧
      ModelMatch ht2 (fun q => if q = k then none else m q) ∧
      ht2.value_copy = ht.value_copy := by
  obtain ⟨hwf, hcmp⟩ := hg
  rcases hab : keyAbsent ht k with _ | _
  · obtain ⟨i, k1, v1, hi, hsl, hcc⟩ := not_keyAbsent hab
    have hk1 : k1 = k := (hcmp _ _).mp hcc
    subst k1
    obtain ⟨ht2, heq, hwf2, f1, f2, f3, f4, f5, f6, hnone, hiff⟩ :=
      delete_found_spec hwf hcmp hi hsl
    refine ⟨true, ht2, heq,
      ⟨hwf2, fun x y => by rw [f2]; exact hcmp x y⟩, ?_, f3⟩
    intro k2 v2
    show HasKV ht2 k2 v2 ↔ (if k2 = k then none else m k2) = some v2
    by_cases hk2 : k2 = k
    · subst hk2
      rw [if_pos rfl]
      constructor
      · intro h
        exact absurd h (hnone v2)
      · intro h
        exact absurd h (by simp)
    · rw [if_neg hk2]
      exact (hiff k2 v2 hk2).trans (hm k2 v2)
  · refine ⟨false, ht, delete_absent_spec hwf hcmp hab, ⟨hwf, hcmp⟩, ?_, rfl⟩
    intro k2 v2
    show HasKV ht k2 v2 ↔ (if k2 = k then none else m k2) = some v2
    by_cases hk2 : k2 = k
    · subst hk2
      rw [if_pos rfl]
      constructor
      · rintro ⟨i, hi, hs⟩
        exact absurd rfl (key_not_present hcmp hab i k2 v2 hi hs)
      · intro h
        exact absurd h (by simp)
    · rw [if_neg hk2]
      exact hm k2 v2

theorem runOp_model [DecidableEq K] {ht : Table K V} {op : Op K V}
    {ht2 : Table K V} {m : K → Option V} (hg : Good ht) (hm : ModelMatch ht m)
    (hop : isSetDel op) (h : runOp ht op = some ht2) :
    Good ht2 ∧ ModelMatch ht2 (modelApply op m) ∧
      ht2.value_copy = ht.value_copy := by
  rcases op with ⟨a, k, v⟩ | k | _ | ⟨a, n⟩
  · rcases a with _ | _
    · exact absurd hop (by simp [isSetDel])
    · obtain ⟨ht3, heq, hg3, hm3, f3⟩ := set_model hg hm
      rw [runOp, heq] at h
      simp only [Option.map_some'] at h
      injection h with hht
      subst hht
      exact ⟨hg3, hm3, f3⟩
  · obtain ⟨b, ht3, heq, hg3, hm3, f3⟩ := delete_model hg hm
    rw [runOp, heq] at h
    simp only [Option.map_some'] at h
    injection h with hht
    subst hht
    exact ⟨hg3, hm3, f3⟩
  · exact absurd hop (by simp [isSetDel])
  · exact absurd hop (by simp [isSetDel])

theorem replay_model [DecidableEq K] {ht : Table K V} :
    ∀ (ops : List (Op K V)) (ht2 : Table K V) (m : K → Option V), Good ht →
      ModelMatch ht m → (∀ op ∈ ops, isSetDel op) →
      replay ht ops = some ht2 →
      Good ht2 ∧
        ModelMatch ht2 (ops.foldl (fun m2 op => modelApply op m2) m) ∧
        ht2.value_copy = ht.value_copy := by
  intro ops
  induction ops generalizing ht with
  | nil =>
      intro ht2 m hg hm _ h
      rw [replay] at h
      injection h with hht
      subst hht
      exact ⟨hg, hm, rfl⟩
  | cons op ops ih =>
      intro ht2 m hg hm hops h
      rw [replay] at h
      rcases hop : runOp ht op with _ | ht1
      · rw [hop] at h
        exact absurd h (by simp)
      · rw [hop] at h
        simp only [Option.some_bind] at h
        obtain ⟨hg1, hm1, e3⟩ :=
          runOp_model hg hm (hops op (List.mem_cons_self _ _)) hop
        obtain ⟨hg2, hm2, d3⟩ := ih ht2 (modelApply op m) hg1 hm1
          (fun op2 hop2 => hops op2 (List.mem_cons_of_mem _ hop2)) h
        exact ⟨hg2, hm2, d3.trans e3⟩

/-! ### Termination of the probe loops on well-formed tables -/

theorem probe_some_of_wf {ht : Table K V} (hwf : WF ht) (k : K) :
    (probe ht k).isSome = true := by
  have hc : 0 < ht.capacity := by have := hwf.hcap; omega
  have hcnt : occCount ht.entries + delCount ht.entries < ht.entries.length := by
    rw [hwf.hlen, ← hwf.hsize, ← hwf.hdel]
    exact hwf.hload
  obtain ⟨ie, hie, hemp⟩ := exists_empty_slot hcnt
  obtain ⟨j0, hj0, hj0e⟩ :=
    path_surj hc (by rwa [hwf.hlen] at hie) (ht.hash k % ht.capacity)
  exact probeLoop_isSome ht.capacity _ none (Nat.mod_lt _ hc)
    ⟨j0, hj0, by rw [hj0e]; exact stopB_empty hemp⟩

theorem get_some_of_wf [Zero V] {ht : Table K V} (hwf : WF ht) (k : K) :
    (ht_get ht k).isSome = true := by
  obtain ⟨o, ho⟩ := Option.isSome_iff_exists.mp (probe_some_of_wf hwf k)
  rcases o with ⟨i, k1, v⟩ | ⟨e, fd⟩ <;> simp [ht_get, ho]

theorem delete_some_of_wf {ht : Table K V} (hwf : WF ht) (k : K) :
    (ht_delete ht k).isSome = true := by
  obtain ⟨o, ho⟩ := Option.isSome_iff_exists.mp (probe_some_of_wf hwf k)
  rcases o with ⟨i, k1, v⟩ | ⟨e, fd⟩ <;> simp [ht_delete, ho]

theorem setInsert_some_of_wf {ht : Table K V} (hwf : WF ht) (k : K) (v : V) :
    (setInsert ht k v).isSome = true := by
  obtain ⟨o, ho⟩ := Option.isSome_iff_exists.mp (probe_some_of_wf hwf k)
  rcases o with ⟨i, k1, v1⟩ | ⟨e, fd⟩ <;> simp [setInsert, ho]

theorem set_some_of_wf {ht : Table K V} (hwf : WF ht) (a : Bool) (k : K)
    (v : V) : (ht_set a ht k v).isSome = true := by
  rcases htr : resizeTrigger ht with _ | _
  · simp only [ht_set, htr, Bool.false_eq_true, if_false]
    exact setInsert_some_of_wf hwf k v
  · rcases a with _ | _
    · simp [ht_set, htr, ht_resize]
    · have hnc : ht.capacity < ht.capacity * 2 := by have := hwf.hcap; omega
      obtain ⟨ht2, heqr, hwfr, _⟩ := resize_spec hwf hnc
      simp only [ht_set, htr, if_true, heqr]
      exact setInsert_some_of_wf hwfr k v

/-! ### Load-factor accounting of a successful `set` -/

theorem set_load_bound {a : Bool} {ht : Table K V} {k : K} {v : V}
    {ht2 : Table K V} (hwf : WF ht) (hcmp : CmpOk ht)
    (h : ht_set a ht k v = some (.HT_SUCCESS, ht2)) :
    4 * (ht2.size + ht2.deleted_count) ≤ 3 * ht2.capacity + 4 := by
  rcases htr : resizeTrigger ht with _ | _
  · obtain ⟨ht3, heq, _, _, _, _, f4, hb, _, _, _⟩ :=
      setInsert_spec hwf hcmp (no_trigger_room hwf htr)
    simp only [ht_set, htr, Bool.false_eq_true, if_false] at h
    rw [heq] at h
    obtain ⟨_, hht⟩ := some_pair_inj h
    subst hht
    rw [resizeTrigger] at htr
    simp only [Bool.or_eq_false_iff, decide_eq_false_iff_not, not_lt] at htr
    rw [f4]
    omega
  · rcases a with _ | _
    · simp only [ht_set, htr, if_true, ht_resize, Bool.false_eq_true,
        if_false] at h
      obtain ⟨hst, _⟩ := some_pair_inj h
      exact ht_status.noConfusion hst
    · have hnc : ht.capacity < ht.capacity * 2 := by have := hwf.hcap; omega
      obtain ⟨htr2, heqr, hwfr, g1, g2, g3, g4, g5, g6, _⟩ := resize_spec hwf hnc
      have hcmpr : CmpOk htr2 := fun x y => by rw [g2]; exact hcmp x y
      have hroom : htr2.size + htr2.deleted_count + 1 < htr2.capacity := by
        rw [g4, g5, g6]
        have := hwf.hload
        have := hwf.hcap
        omega
      obtain ⟨ht3, heq, _, _, _, _, f4, hb, _, _, _⟩ :=
        setInsert_spec hwfr hcmpr hroom
      simp only [ht_set, htr, if_true, heqr] at h
      rw [heq] at h
      obtain ⟨_, hht⟩ := some_pair_inj h
      subst hht
      rw [g5, g6] at hb
      rw [f4, g4]
      have := hwf.hload
      omega

theorem set_success_spec {a : Bool} {ht : Table K V} {k : K} {v : V}
    {ht2 : Table K V} (hwf : WF ht) (hcmp : CmpOk ht)
    (h : ht_set a ht k v = some (.HT_SUCCESS, ht2)) :
    WF ht2 ∧ CmpOk ht2 ∧ ht2.value_copy = ht.value_copy ∧ HasKV ht2 k v := by
  rcases htr : resizeTrigger ht with _ | _
  · obtain ⟨ht3, heq, hwf3, f1, f2, f3, _, _, hhas, _, _⟩ :=
      setInsert_spec hwf hcmp (no_trigger_room hwf htr)
    simp only [ht_set, htr, Bool.false_eq_true, if_false] at h
    rw [heq] at h
    obtain ⟨_, hht⟩ := some_pair_inj h
    subst hht
    exact ⟨hwf3, fun x y => by rw [f2]; exact hcmp x y, f3, hhas⟩
  · rcases a with _ | _
    · simp only [ht_set, htr, if_true, ht_resize, Bool.false_eq_true,
        if_false] at h
      obtain ⟨hst, _⟩ := some_pair_inj h
      exact ht_status.noConfusion hst
    · have hnc : ht.capacity < ht.capacity * 2 := by have := hwf.hcap; omega
      obtain ⟨htr2, heqr, hwfr, g1, g2, g3, g4, g5, g6, _⟩ := resize_spec hwf hnc
      have hcmpr : CmpOk htr2 := fun x y => by rw [g2]; exact hcmp x y
      have hroom : htr2.size + htr2.deleted_count + 1 < htr2.capacity := by
        rw [g4, g5, g6]
        have := hwf.hload
        have := hwf.hcap
        omega
      obtain ⟨ht3, heq, hwf3, f1, f2, f3, _, _, hhas, _, _⟩ :=
        setInsert_spec hwfr hcmpr hroom
      simp only [ht_set, htr, if_true, heqr] at h
      rw [heq] at h
      obtain ⟨_, hht⟩ := some_pair_inj h
      subst hht
      exact ⟨hwf3, fun x y => by rw [f2, g2]; exact hcmp x y,
        f3.trans g3, hhas⟩

theorem isDel_iff {s : Slot K V} : isDel s = true ↔ s = .deleted := by
  cases s <;> simp [isDel]

theorem setInsert_no_error {ht : Table K V} {k : K} {v : V}
    {ht2 : Table K V} : setInsert ht k v ≠ some (.HT_ERROR_MEMORY, ht2) := by
  intro h
  rcases hp : probe ht k with _ | o
  · simp [setInsert, hp] at h
  · rcases o with ⟨i, k1, v1⟩ | ⟨e, fd⟩ <;> simp [setInsert, hp] at h

/-! ## The claims -/

/-- C1: for every sequence of `set` (with allocation succeeding) and
`delete` operations replayed on a freshly created table with a lawful
comparison and no value cloner, `get k` returns the value supplied by the
most recent `set k v` not followed by a `delete k`, and the absent
sentinel `(value_type)0` for a key whose last operation was a delete or
that was never set — where the surviving value is computed by the
reference map `modelOf`. -/
theorem claim_C1 {K V : Type} [DecidableEq K] [Zero V] (hash : K → Nat)
    (compare : K → K → Bool) (hcmp : ∀ a b, compare a b = true ↔ a = b)
    (ops : List (Op K V)) (hops : ∀ op ∈ ops, isSetDel op)
    (ht : Table K V)
    (hrep : replay (ht_create hash compare none) ops = some ht) (k : K) :
    (∀ v, modelOf ops k = some v → ht_get ht k = some v) ∧
    (modelOf ops k = none → ht_get ht k = some (0 : V)) := by
  obtain ⟨⟨hwf, hcmp2⟩, hm, hvc⟩ :=
    replay_model ops ht (fun _ => none) (create_good hcmp) create_model
      hops hrep
  have hm2 : ModelMatch ht (modelOf ops) := hm
  have hvc2 : ht.value_copy = none := hvc
  constructor
  · intro v hv
    obtain ⟨i, hi, hs⟩ := (hm2 k v).mpr hv
    rw [get_found_spec hwf hcmp2 hi hs]
    simp [applyCopy, hvc2]
  · intro hv
    have habs : keyAbsent ht k = true := by
      apply keyAbsent_of_not_hasKV hcmp2
      intro v hkv
      have := (hm2 k v).mp hkv
      rw [hv] at this
      exact Option.noConfusion this
    exact get_absent_spec hwf hcmp2 habs

theorem claim_C1_witness : ht_get c1tab 5 = some 9 :=
  (claim_C1 idHash cmpNat (fun a b => beq_iff_eq) c1ops
    (by
      intro op hop
      rcases List.mem_cons.mp hop with rfl | hop
      · trivial
      rcases List.mem_cons.mp hop with rfl | hop
      · trivial
      rcases List.mem_cons.mp hop with rfl | hop
      · trivial
      · exact absurd hop (by simp))
    c1tab rfl 5).1 9 rfl

/-- C2 counterexample: on the reachable table holding the 12 distinct keys
`0..11` at capacity 16 (load exactly 0.75, so the `> 0.75` trigger does
not fire), one more successful `set` leaves the table at load 13/16,
refuting the claim that `(live_count + tombstone_count) / capacity` never
exceeds 0.75 immediately after a successful `set`. -/
theorem claim_C2_counterexample :
    replay tab0 (opsN 12) = some (tabN 12) ∧
    ht_set true (tabN 12) 12 12 = some (.HT_SUCCESS, tabN 13) ∧
    4 * ((tabN 13).size + (tabN 13).deleted_count) > 3 * (tabN 13).capacity :=
  ⟨rfl, rfl, by decide⟩

/-- C2 (amended): in every reachable state `live_count` never exceeds the
capacity, and immediately after a successful `set` the load factor
`(live_count + tombstone_count) / capacity` is at most `0.75 + 1/capacity`
(that is, `4 * (live + tomb) ≤ 3 * capacity + 4`) — the original bound
`≤ 0.75` fails by exactly one slot, as the counterexample shows. -/
theorem claim_C2 {K V : Type} (hash : K → Nat) (compare : K → K → Bool)
    (vc : Option (V → V)) (hcmp : ∀ a b, compare a b = true ↔ a = b)
    (ops : List (Op K V)) (ht : Table K V)
    (hrep : replay (ht_create hash compare vc) ops = some ht) :
    ht.size ≤ ht.capacity ∧
    ∀ (a : Bool) (k : K) (v : V) (ht2 : Table K V),
      ht_set a ht k v = some (.HT_SUCCESS, ht2) →
      4 * (ht2.size + ht2.deleted_count) ≤ 3 * ht2.capacity + 4 := by
  obtain ⟨⟨hwf, hcmp2⟩, _⟩ := replay_good ops ht (create_good hcmp) hrep
  refine ⟨by have := hwf.hload; omega, ?_⟩
  intro a k v ht2 h
  exact set_load_bound hwf hcmp2 h

theorem claim_C2_witness :
    (tabN 13).size ≤ (tabN 13).capacity ∧
    4 * ((tabN 14).size + (tabN 14).deleted_count) ≤
      3 * (tabN 14).capacity + 4 :=
  ⟨(claim_C2 idHash cmpNat none (fun a b => beq_iff_eq) (opsN 13)
      (tabN 13) rfl).1,
    (claim_C2 idHash cmpNat none (fun a b => beq_iff_eq) (opsN 13)
      (tabN 13) rfl).2 true 13 13 (tabN 14) rfl⟩

/-- C3: whenever the resize runs successfully (it is invoked from `set`
with target `2 * capacity` and from `reserve` with a target above the
current capacity, so the new capacity always exceeds the old), the
post-resize table has `tombstone_count = 0`, the same `live_count`, and
every live pair is still retrievable by `get`. -/
theorem claim_C3 {K V : Type} [Zero V] {ht : Table K V} {nc : Nat}
    (hwf : WF ht) (hcmp : CmpOk ht) (hnc : ht.capacity < nc) :
    ∃ ht2, ht_resize true ht nc = some (.HT_SUCCESS, ht2) ∧
      ht2.deleted_count = 0 ∧ ht2.size = ht.size ∧
      ∀ k v, HasKV ht k v → ht_get ht2 k = some (applyCopy ht2 v) := by
  obtain ⟨ht2, heq, hwf2, g1, g2, g3, g4, g5, g6, hkv⟩ := resize_spec hwf hnc
  refine ⟨ht2, heq, g6, g5, ?_⟩
  intro k v h
  obtain ⟨i, hi, hs⟩ := (hkv k v).mpr h
  exact get_found_spec hwf2 (fun x y => by rw [g2]; exact hcmp x y) hi hs

theorem claim_C3_witness :
    ∃ ht2, ht_resize true tab0 32 = some (.HT_SUCCESS, ht2) ∧
      ht2.deleted_count = 0 ∧ ht2.size = tab0.size ∧
      ∀ k v, HasKV tab0 k v → ht_get ht2 k = some (applyCopy ht2 v) :=
  claim_C3 (create_WF idHash cmpNat none) (fun a b => beq_iff_eq)
    (by decide)

/-- C4: `set` returns `HT_ERROR_MEMORY` only when the resize it triggered
could not allocate, and in that case the returned table is exactly the
table before the call — slot array, capacity, and both counts untouched —
so the supplied key and value are not stored. -/
theorem claim_C4 {K V : Type} {a : Bool} {ht : Table K V} {k : K} {v : V}
    {ht2 : Table K V} (h : ht_set a ht k v = some (.HT_ERROR_MEMORY, ht2)) :
    a = false ∧ resizeTrigger ht = true ∧ ht2 = ht := by
  rcases htr : resizeTrigger ht with _ | _
  · simp only [ht_set, htr, Bool.false_eq_true, if_false] at h
    exact absurd h setInsert_no_error
  · rcases a with _ | _
    · simp only [ht_set, htr, if_true, ht_resize, Bool.false_eq_true,
        if_false] at h
      obtain ⟨_, hht⟩ := some_pair_inj h
      exact ⟨rfl, rfl, hht.symm⟩
    · exfalso
      simp only [ht_set, htr, if_true, ht_resize] at h
      rcases hreh : rehashList ht.hash (ht.capacity * 2) ht.entries
          (List.replicate (ht.capacity * 2) .empty, 0) with _ | ⟨es, sz⟩
      · rw [hreh] at h
        simp at h
      · rw [hreh] at h
        simp only [if_true] at h
        exact absurd h setInsert_no_error

theorem claim_C4_witness :
    false = false ∧ resizeTrigger (tabN 13) = true ∧ c4res = tabN 13 :=
  claim_C4 (show ht_set false (tabN 13) 100 0 =
    some (.HT_ERROR_MEMORY, c4res) from rfl)

/-- C5: after any successful `set k v`, an immediate `get k` returns a
value equal to `v` when no value cloner is configured, and the clone
`f v` when the cloner `f` is configured. -/
theorem claim_C5 {K V : Type} [Zero V] {a : Bool} {ht : Table K V} {k : K}
    {v : V} {ht2 : Table K V} (hwf : WF ht) (hcmp : CmpOk ht)
    (h : ht_set a ht k v = some (.HT_SUCCESS, ht2)) :
    (ht2.value_copy = none → ht_get ht2 k = some v) ∧
    ∀ f, ht2.value_copy = some f → ht_get ht2 k = some (f v) := by
  obtain ⟨hwf2, hcmp2, hvc, hhas⟩ := set_success_spec hwf hcmp h
  obtain ⟨i, hi, hs⟩ := hhas
  have hget := get_found_spec hwf2 hcmp2 hi hs
  constructor
  · intro hnone
    rw [hget]
    simp [applyCopy, hnone]
  · intro f hsome
    rw [hget]
    simp [applyCopy, hsome]

theorem claim_C5_witness : ht_get c5tab 1 = some 2 :=
  (claim_C5 (create_WF idHash cmpNat none) (fun a b => beq_iff_eq)
    (show ht_set true tab0 1 2 = some (.HT_SUCCESS, c5tab) from rfl)).1 rfl

/-- C6: deleting a key with no occupied slot comparing equal to it returns
0 (false) and leaves the table exactly unchanged — the same slot array,
`live_count` and `tombstone_count`. -/
theorem claim_C6 {K V : Type} {ht : Table K V} {k : K} (hwf : WF ht)
    (hcmp : CmpOk ht) (habs : keyAbsent ht k = true) :
    ht_delete ht k = some (false, ht) :=
  delete_absent_spec hwf hcmp habs

theorem claim_C6_witness : ht_delete tab0 5 = some (false, tab0) :=
  claim_C6 (create_WF idHash cmpNat none) (fun a b => beq_iff_eq)
    (by decide)

/-- C7 counterexample: key 0 is live in `tabN 13`, so `set 0 99` is a pure
update that grows nothing (`size` stays 13), yet the call still evaluates
the trigger and resizes the table from capacity 16 to 32 — refuting that
the trigger is evaluated only before an insertion that would grow the
table. -/
theorem claim_C7_counterexample :
    slotAt (tabN 13) 0 = .occupied 0 0 ∧
    ht_set true (tabN 13) 0 99 = some (.HT_SUCCESS, updRes.2) ∧
    updRes.2.size = (tabN 13).size ∧
    (tabN 13).capacity = 16 ∧ updRes.2.capacity = 32 :=
  ⟨rfl, rfl, rfl, rfl, rfl⟩

/-- C7 (amended): the resize trigger is evaluated at the start of every
`set` call — also for pure updates of a live key, which can therefore
resize without any insertion — the table is resized in `set` exactly when
`4*(live+tomb) > 3*capacity` or `tomb > live/2`, and the target capacity
is then double the current capacity (otherwise the capacity is
unchanged). -/
theorem claim_C7 {K V : Type} {ht : Table K V} {k : K} {v : V}
    {st : ht_status} {ht2 : Table K V} (hwf : WF ht) (hcmp : CmpOk ht)
    (h : ht_set true ht k v = some (st, ht2)) :
    st = .HT_SUCCESS ∧
    (resizeTrigger ht = true ↔
      (4 * (ht.size + ht.deleted_count) > 3 * ht.capacity ∨
        ht.deleted_count > ht.size / 2)) ∧
    ht2.capacity =
      (if resizeTrigger ht then ht.capacity * 2 else ht.capacity) := by
  have hiff : resizeTrigger ht = true ↔
      (4 * (ht.size + ht.deleted_count) > 3 * ht.capacity ∨
        ht.deleted_count > ht.size / 2) := by
    rw [resizeTrigger]
    simp
  rcases htr : resizeTrigger ht with _ | _
  · obtain ⟨ht3, heq, _, _, _, _, f4, _, _, _, _⟩ :=
      setInsert_spec hwf hcmp (no_trigger_room hwf htr)
    simp only [ht_set, htr, Bool.false_eq_true, if_false] at h
    rw [heq] at h
    obtain ⟨hst, hht⟩ := some_pair_inj h
    subst hht
    refine ⟨hst.symm, htr ▸ hiff, ?_⟩
    rw [if_neg (by simp)]
    exact f4
  · have hnc : ht.capacity < ht.capacity * 2 := by have := hwf.hcap; omega
    obtain ⟨htr2, heqr, hwfr, g1, g2, g3, g4, g5, g6, _⟩ := resize_spec hwf hnc
    have hcmpr : CmpOk htr2 := fun x y => by rw [g2]; exact hcmp x y
    have hroom : htr2.size + htr2.deleted_count + 1 < htr2.capacity := by
      rw [g4, g5, g6]
      have := hwf.hload
      have := hwf.hcap
      omega
    obtain ⟨ht3, heq, _, _, _, _, f4, _, _, _, _⟩ :=
      setInsert_spec hwfr hcmpr hroom
    simp only [ht_set, htr, if_true, heqr] at h
    rw [heq] at h
    obtain ⟨hst, hht⟩ := some_pair_inj h
    subst hht
    refine ⟨hst.symm, htr ▸ hiff, ?_⟩
    rw [if_pos rfl]
    exact f4.trans g4

theorem claim_C7_witness :
    ht_status.HT_SUCCESS = .HT_SUCCESS ∧
    (resizeTrigger (tabN 13) = true ↔
      (4 * ((tabN 13).size + (tabN 13).deleted_count) >
          3 * (tabN 13).capacity ∨
        (tabN 13).deleted_count > (tabN 13).size / 2)) ∧
    updRes.2.capacity =
      (if resizeTrigger (tabN 13) then (tabN 13).capacity * 2
      else (tabN 13).capacity) :=
  claim_C7
    ((replay_good (opsN 13) (tabN 13)
      (show Good tab0 from create_good fun a b => beq_iff_eq) rfl).1).1
    ((replay_good (opsN 13) (tabN 13)
      (show Good tab0 from create_good fun a b => beq_iff_eq) rfl).1).2
    (show ht_set true (tabN 13) 0 99 = some (.HT_SUCCESS, updRes.2) from rfl)

theorem isDel_false_of_ne {s : Slot K V} (h : s ≠ .deleted) :
    isDel s = false := by
  cases s <;> simp_all [isDel]

theorem isDel_true_of_eq {s : Slot K V} (h : s = .deleted) :
    isDel s = true := by
  rw [h]
  rfl

/-- C8: when `set` inserts a key not present in the table and no resize is
triggered, and the probe path from `hash(k) % capacity` to its terminating
empty slot (at offset `j`) contains a deleted slot, the new entry is
written into the earliest deleted slot on that path and `tombstone_count`
is decremented; with no deleted slot on the path it is written into the
terminating empty slot and `tombstone_count` is unchanged. -/
theorem claim_C8 {K V : Type} {ht : Table K V} {k : K} {v : V}
    (hwf : WF ht) (hcmp : CmpOk ht) (htr : resizeTrigger ht = false)
    (habs : keyAbsent ht k = true) :
    ∃ ht2 j, ht_set true ht k v = some (.HT_SUCCESS, ht2) ∧
      j < ht.capacity ∧
      slotAt ht ((ht.hash k % ht.capacity + j) % ht.capacity) = .empty ∧
      (∀ j2, j2 < j →
        slotAt ht ((ht.hash k % ht.capacity + j2) % ht.capacity) ≠ .empty) ∧
      ((∀ j2, j2 < j →
          slotAt ht ((ht.hash k % ht.capacity + j2) % ht.capacity) ≠
            .deleted) →
        ht2.entries = ht.entries.set
          ((ht.hash k % ht.capacity + j) % ht.capacity) (.occupied k v) ∧
        ht2.deleted_count = ht.deleted_count) ∧
      (∀ jd, jd < j →
        slotAt ht ((ht.hash k % ht.capacity + jd) % ht.capacity) = .deleted →
        (∀ j3, j3 < jd →
          slotAt ht ((ht.hash k % ht.capacity + j3) % ht.capacity) ≠
            .deleted) →
        ht2.entries = ht.entries.set
          ((ht.hash k % ht.capacity + jd) % ht.capacity) (.occupied k v) ∧
        ht2.deleted_count = ht.deleted_count - 1) := by
  have hc : 0 < ht.capacity := by have := hwf.hcap; omega
  obtain ⟨j, hj, hprobe, hempty, hpre⟩ := probe_absent hwf hcmp habs
  rcases hfd : pathFirstDel ht (ht.hash k % ht.capacity) j with _ | d
  · have hnofd := pathFirstDel_none_inv j _ (Nat.mod_lt _ hc) hfd
    have hprobe2 : probe ht k = some (.miss
        ((ht.hash k % ht.capacity + j) % ht.capacity) none) := by
      rw [hprobe, hfd]
    refine ⟨{ ht with
        entries := ht.entries.set
          ((ht.hash k % ht.capacity + j) % ht.capacity) (.occupied k v)
        size := ht.size + 1 }, j, ?_, hj, hempty, hpre, ?_, ?_⟩
    · simp only [ht_set, htr, Bool.false_eq_true, if_false, setInsert,
        hprobe2]
      rfl
    · intro _
      exact ⟨rfl, rfl⟩
    · intro jd hjd hdel _
      exact absurd hdel (hnofd jd hjd)
  · obtain ⟨jd0, hjd0, hde0, hdel0, hpredel0⟩ :=
      pathFirstDel_inversion j _ d (Nat.mod_lt _ hc) hfd
    have hprobe2 : probe ht k = some (.miss
        ((ht.hash k % ht.capacity + j) % ht.capacity) (some d)) := by
      rw [hprobe, hfd]
    refine ⟨{ ht with
        entries := ht.entries.set d (.occupied k v)
        size := ht.size + 1
        deleted_count := ht.deleted_count - 1 }, j, ?_, hj, hempty, hpre,
      ?_, ?_⟩
    · simp only [ht_set, htr, Bool.false_eq_true, if_false, setInsert,
        hprobe2]
      rfl
    · intro hno
      exact absurd hdel0 (hno jd0 hjd0)
    · intro jd hjd hdel hpredel
      have heq0 : jd = jd0 :=
        least_stop_unique
          (fun i hi => isDel_false_of_ne (hpredel i hi))
          (isDel_true_of_eq hdel)
          (fun i hi => isDel_false_of_ne (hpredel0 i hi))
          (isDel_true_of_eq hdel0)
      subst heq0
      constructor
      · show ht.entries.set d (.occupied k v) = ht.entries.set
          ((ht.hash k % ht.capacity + jd) % ht.capacity) (.occupied k v)
        rw [hde0]
      · rfl

theorem claim_C8_witness :
    ∃ ht2 j, ht_set true tabC8 16 7 = some (.HT_SUCCESS, ht2) ∧
      j < tabC8.capacity ∧
      slotAt tabC8 ((tabC8.hash 16 % tabC8.capacity + j) %
        tabC8.capacity) = .empty ∧
      (∀ j2, j2 < j →
        slotAt tabC8 ((tabC8.hash 16 % tabC8.capacity + j2) %
          tabC8.capacity) ≠ .empty) ∧
      ((∀ j2, j2 < j →
          slotAt tabC8 ((tabC8.hash 16 % tabC8.capacity + j2) %
            tabC8.capacity) ≠ .deleted) →
        ht2.entries = tabC8.entries.set
          ((tabC8.hash 16 % tabC8.capacity + j) % tabC8.capacity)
          (.occupied 16 7) ∧
        ht2.deleted_count = tabC8.deleted_count) ∧
      (∀ jd, jd < j →
        slotAt tabC8 ((tabC8.hash 16 % tabC8.capacity + jd) %
          tabC8.capacity) = .deleted →
        (∀ j3, j3 < jd →
          slotAt tabC8 ((tabC8.hash 16 % tabC8.capacity + j3) %
            tabC8.capacity) ≠ .deleted) →
        ht2.entries = tabC8.entries.set
          ((tabC8.hash 16 % tabC8.capacity + jd) % tabC8.capacity)
          (.occupied 16 7) ∧
        ht2.deleted_count = tabC8.deleted_count - 1) :=
  claim_C8
    ((replay_good opsC8 tabC8
      (show Good tab0 from create_good fun a b => beq_iff_eq) rfl).1).1
    ((replay_good opsC8 tabC8
      (show Good tab0 from create_good fun a b => beq_iff_eq) rfl).1).2
    (by decide) (by decide)

theorem ptrBytes_inj {p q : Nat} (hp : p < 2 ^ 64) (hq : q < 2 ^ 64)
    (h : ptrBytes p = ptrBytes q) : p = q := by
  have e : (2 : Nat) ^ 64 = 18446744073709551616 := by norm_num
  rw [e] at hp hq
  rw [ptrBytes, ptrBytes] at h
  simp only [List.cons.injEq, and_true] at h
  obtain ⟨h0, h1, h2, h3, h4, h5, h6, h7⟩ := h
  simp only [Nat.shiftRight_eq_div_pow] at h1 h2 h3 h4 h5 h6 h7
  norm_num at h1 h2 h3 h4 h5 h6 h7
  omega

/-- C9: `create` with null hash and comparison callbacks stores the
defaults `ht_hash_ptr` and `ht_compare_ptr`; the default comparison holds
exactly when the two pointer-sized keys have the same bit pattern (the
same eight bytes), and the default hash is a function of the key's bit
pattern only (it factors through `ptrBytes`). -/
theorem claim_C9 {V : Type} (vc : Option (V → V)) :
    (ptr_create none none vc).hash = ht_hash_ptr ∧
    (ptr_create none none vc).compare = ht_compare_ptr ∧
    (∀ p q, p < 2 ^ 64 → q < 2 ^ 64 →
      (ht_compare_ptr p q = true ↔ ptrBytes p = ptrBytes q)) ∧
    ∀ p q, ptrBytes p = ptrBytes q → ht_hash_ptr p = ht_hash_ptr q := by
  refine ⟨rfl, rfl, ?_, ?_⟩
  · intro p q hp hq
    constructor
    · intro h
      have hpq : p = q := by simpa [ht_compare_ptr] using h
      rw [hpq]
    · intro h
      have hpq : p = q := ptrBytes_inj hp hq h
      rw [ht_compare_ptr, hpq]
      simp
  · intro p q h
    rw [ht_hash_ptr, ht_hash_ptr, h]

theorem claim_C9_witness :
    (ht_compare_ptr 7 7 = true ↔ ptrBytes 7 = ptrBytes 7) ∧
    ht_hash_ptr 12345 = ht_hash_ptr 12345 :=
  ⟨(claim_C9 (none : Option (Nat → Nat))).2.2.1 7 7 (by norm_num)
      (by norm_num),
    (claim_C9 (none : Option (Nat → Nat))).2.2.2 12345 12345 rfl⟩

/-- C10: every table reachable from `create` through `set` / `delete` /
`clear` / `reserve` keeps at least one empty slot, and therefore the probe
loops of `get`, `delete` and `set` — which run with fuel `capacity`, one
unit per probed slot — terminate within `capacity` probes for every key. -/
theorem claim_C10 {K V : Type} [Zero V] (hash : K → Nat)
    (compare : K → K → Bool) (vc : Option (V → V))
    (hcmp : ∀ a b, compare a b = true ↔ a = b)
    (ops : List (Op K V)) (ht : Table K V)
    (hrep : replay (ht_create hash compare vc) ops = some ht) :
    (∃ i, i < ht.capacity ∧ slotAt ht i = .empty) ∧
    ∀ k : K, (probe ht k).isSome = true ∧ (ht_get ht k).isSome = true ∧
      (ht_delete ht k).isSome = true ∧
      ∀ (v : V) (a : Bool), (ht_set a ht k v).isSome = true := by
  obtain ⟨⟨hwf, hcmp2⟩, _⟩ := replay_good ops ht (create_good hcmp) hrep
  constructor
  · have hcnt : occCount ht.entries + delCount ht.entries <
        ht.entries.length := by
      rw [hwf.hlen, ← hwf.hsize, ← hwf.hdel]
      exact hwf.hload
    obtain ⟨i, hi, he⟩ := exists_empty_slot hcnt
    exact ⟨i, by rwa [hwf.hlen] at hi, he⟩
  · intro k
    exact ⟨probe_some_of_wf hwf k, get_some_of_wf hwf k,
      delete_some_of_wf hwf k, fun v a => set_some_of_wf hwf a k v⟩

theorem claim_C10_witness :
    (∃ i, i < tab0.capacity ∧ slotAt tab0 i = .empty) ∧
    ∀ k : Nat, (probe tab0 k).isSome = true ∧
      (ht_get tab0 k).isSome = true ∧
      (ht_delete tab0 k).isSome = true ∧
      ∀ (v : Nat) (a : Bool), (ht_set a tab0 k v).isSome = true :=
  claim_C10 idHash cmpNat none (fun a b => beq_iff_eq) [] tab0 rfl

end HT
